import Mathlib

/-!
# Conversation logger: transcript parser and message renderer

A shallow embedding of `processFile` from
`src/Claude/improved-conversation-logger.js`.

Text is modelled as `List Char`.  The four regular expressions of the source
mention only characters of the Basic Multilingual Plane that are not
surrogates, and each of their wildcard classes (`[\s\S]`, `[^\]]`) accepts
every UTF-16 code unit, so matching over Unicode scalar values and matching
over UTF-16 code units select the same spans of text.

Each regular expression is embedded piece by piece, in the order in which the
backtracking matcher of the language tries its alternatives:

* a greedy class repetition followed by something that no character of the
  class can match (`\s*` before a non-blank or the end, `[\w]*` before `\n`,
  `[^\]]+` before `\]`) is `takeWhile`/`dropWhile`, since giving characters
  back can never make the follower succeed;
* a lazy `[\s\S]*?` is a character-by-character walk that stops at the first
  position where the follower succeeds;
* a `g`-flagged `exec` loop or `replace` is a left-to-right scan that tries a
  match at the cursor, jumps to the end of the match on success and moves one
  character to the right on failure.  No pattern here can match the empty
  string, so every jump consumes at least one character and a fuel of
  `length + 1` is never exhausted.
-/

set_option maxRecDepth 100000

namespace ConversationLogger

/-! ## Character classes -/

/-- The class `\s` of the regular expressions, which is also the set of
characters removed by `String.prototype.trim` (white space and line
terminators). -/
def isWhiteSpace (c : Char) : Bool :=
  c == '\t' || c == '\n' || c == '\x0b' || c == '\x0c' || c == '\r' || c == ' ' ||
  c == '\u00a0' || c == '\u1680' || (0x2000 ≤ c.toNat && c.toNat ≤ 0x200a) ||
  c == '\u2028' || c == '\u2029' || c == '\u202f' || c == '\u205f' ||
  c == '\u3000' || c == '\ufeff'

/-- The line terminators: with the `m` flag, `^` holds right after one of
them and `$` holds right before one of them. -/
def isLineTerminator (c : Char) : Bool :=
  c == '\n' || c == '\r' || c == '\u2028' || c == '\u2029'

/-- The class `[\w]`: ASCII letters, digits and the underscore. -/
def isWordChar (c : Char) : Bool :=
  c.isAlphanum || c == '_'

/-- The backtick character. -/
def backtick : Char := Char.ofNat 96

/-- `String.prototype.trim`. -/
def trim (s : List Char) : List Char :=
  ((s.dropWhile isWhiteSpace).reverse.dropWhile isWhiteSpace).reverse

/-- `String.prototype.toLowerCase`, applied in the source only to the captured
labels `Human` and `Claude`, which are ASCII. -/
def toLowerCase (s : List Char) : List Char :=
  s.map Char.toLower

/-! ## Data model -/

/-- One entry of the `messages` array. -/
structure Message where
  role : List Char
  content : List Char
  deriving DecidableEq, Repr

/-! ## Primary pattern

`/^(Human|Claude):\s*([\s\S]*?)(?=\n(?:Human|Claude):|$)/gm` -/

/-- `(Human|Claude):` at the cursor: the captured label and the text after the
colon. -/
def matchLabel (s : List Char) : Option (List Char × List Char) :=
  if "Human:".toList.isPrefixOf s then some ("Human".toList, s.drop 6)
  else if "Claude:".toList.isPrefixOf s then some ("Claude".toList, s.drop 7)
  else none

/-- The lookahead `(?=\n(?:Human|Claude):|$)` at the cursor.  Under the `m`
flag `$` holds at the end of the text and before every line terminator. -/
def lookaheadEnd (s : List Char) : Bool :=
  "\nHuman:".toList.isPrefixOf s || "\nClaude:".toList.isPrefixOf s ||
  (match s with
   | [] => true
   | c :: _ => isLineTerminator c)

/-- The lazy group `([\s\S]*?)` followed by the lookahead: the captured text
and the text left after it.  The walk stops at the first cursor where the
lookahead holds; it holds at the end of the text at the latest. -/
def lazyContent : List Char → List Char × List Char
  | [] => ([], [])
  | c :: cs =>
    if lookaheadEnd (c :: cs) then ([], c :: cs)
    else ((c :: (lazyContent cs).1), (lazyContent cs).2)

/-- One attempt of the primary pattern at a cursor where `^` holds: the
captured label, the captured content and the text left after the match. -/
def messagePattern (s : List Char) : Option (List Char × List Char × List Char) :=
  match matchLabel s with
  | none => none
  | some (label, afterColon) =>
    let afterBlank := afterColon.dropWhile isWhiteSpace
    some (label, (lazyContent afterBlank).1, (lazyContent afterBlank).2)

/-- The assertion `^` under the `m` flag, from the character before the
cursor (`none` at the start of the text). -/
def atLineStart : Option Char → Bool
  | none => true
  | some c => isLineTerminator c

/-- The character before the cursor once the scan has moved from `s` to its
suffix `rest`. -/
def lastConsumed (prev : Option Char) (s rest : List Char) : Option Char :=
  match (s.take (s.length - rest.length)).getLast? with
  | some c => some c
  | none => prev

/-- The loop `while ((match = messagePattern.exec(text)) !== null)`: `prev` is
the character before the cursor, `s` the text from the cursor on. -/
def execMessages : Nat → Option Char → List Char → List Message
  | 0, _, _ => []
  | fuel + 1, prev, s =>
    match (if atLineStart prev then messagePattern s else none) with
    | some (label, content, rest) =>
      { role := toLowerCase label, content := trim content } ::
        execMessages fuel (lastConsumed prev s rest) rest
    | none =>
      match s with
      | [] => []
      | c :: cs => execMessages fuel (some c) cs

/-- The messages pushed by the primary pattern. -/
def primaryMessages (text : List Char) : List Message :=
  execMessages (text.length + 1) none text

/-! ## Fallback heuristic

`conversationText.split(/\n\n+/)` and the alternating `forEach`. -/

/-- One attempt of `/\n\n+/` at the cursor: the text left after the match. -/
def matchBlankRun : List Char → Option (List Char)
  | '\n' :: '\n' :: cs => some (cs.dropWhile (fun c => c == '\n'))
  | _ => none

/-- The scan of `String.prototype.split`: `cur` is the text between the end of
the last separator and the cursor, `s` the text from the cursor on. -/
def splitLoop : Nat → List Char → List Char → List (List Char)
  | 0, cur, _ => [cur]
  | fuel + 1, cur, s =>
    match s with
    | [] => [cur]
    | c :: cs =>
      match matchBlankRun (c :: cs) with
      | some rest => cur :: splitLoop fuel [] rest
      | none => splitLoop fuel (cur ++ [c]) cs

/-- `conversationText.split(/\n\n+/)`. -/
def paragraphs (text : List Char) : List (List Char) :=
  splitLoop (text.length + 1) [] text

/-- The body of `paragraphs.forEach`: the state is the `messages` array and
the flag `isHuman`. -/
def fallbackStep (st : List Message × Bool) (para : List Char) : List Message × Bool :=
  if trim para ≠ [] then
    (st.1 ++ [{ role := if st.2 then "human".toList else "assistant".toList,
                content := trim para }], !st.2)
  else st

/-- The messages pushed by the fallback heuristic. -/
def fallbackMessages (text : List Char) : List Message :=
  ((paragraphs text).foldl fallbackStep ([], true)).1

/-! ## The parser -/

/-- The parsing part of `processFile`: `none` is the exit taken after
`Could not parse any messages from the file`. -/
def parseMessages (text : List Char) : Option (List Message) :=
  let messages := primaryMessages text
  let messages := if messages.length = 0 then fallbackMessages text else messages
  if messages.length = 0 then none else some messages

/-! ## Continuation points

`/CONTINUATION_POINT:\s*\[([^\]]+)\]/g` -/

/-- One attempt of the continuation pattern at the cursor: the captured label
and the text left after the match. -/
def continuationPattern (s : List Char) : Option (List Char × List Char) :=
  if "CONTINUATION_POINT:".toList.isPrefixOf s then
    match (s.drop 19).dropWhile isWhiteSpace with
    | '[' :: t =>
      match t.dropWhile (fun c => c != ']') with
      | ']' :: rest =>
        if t.takeWhile (fun c => c != ']') ≠ [] then
          some (t.takeWhile (fun c => c != ']'), rest)
        else none
      | _ => none
    | _ => none
  else none

/-- The loop `while ((contMatch = continuationPattern.exec(content)) !== null)`,
pushing `contMatch[1]`. -/
def execContinuations : Nat → List Char → List (List Char)
  | 0, _ => []
  | fuel + 1, s =>
    match continuationPattern s with
    | some (label, rest) => label :: execContinuations fuel rest
    | none =>
      match s with
      | [] => []
      | _ :: cs => execContinuations fuel cs

/-- The array `continuationPoints` of a message content. -/
def continuationPoints (content : List Char) : List (List Char) :=
  execContinuations (content.length + 1) content

/-! ## Code blocks

The pattern is three backticks, `([\w]*)`, `\n`, `([\s\S]*?)`, three backticks,
with the `g` flag. -/

/-- The three backticks of a fence. -/
def fence : List Char := [backtick, backtick, backtick]

/-- The lazy group `([\s\S]*?)` followed by the closing fence: the captured
code and the text left after the closing fence, or `none` when no closing
fence follows. -/
def lazyCode : List Char → Option (List Char × List Char)
  | [] => none
  | c :: cs =>
    if fence.isPrefixOf (c :: cs) then some ([], (c :: cs).drop 3)
    else
      match lazyCode cs with
      | some (code, rest) => some (c :: code, rest)
      | none => none

/-- One attempt of the code block pattern at the cursor: the captured
language, the captured code and the text left after the match. -/
def matchCodeBlock (s : List Char) : Option (List Char × List Char × List Char) :=
  if fence.isPrefixOf s then
    match (s.drop 3).dropWhile isWordChar with
    | '\n' :: body =>
      match lazyCode body with
      | some (code, rest) => some ((s.drop 3).takeWhile isWordChar, code, rest)
      | none => none
    | _ => none
  else none

/-- The text before the language shown in the header. -/
def codeHeaderOpen : List Char :=
  "<div class=\"code-header\" style=\"cursor:pointer;color:#3a86ff;margin-top:15px;\">‚ñ∂ ".toList

/-- The text between the header and the language of the class attribute. -/
def codeBodyOpen : List Char :=
  "</div><pre style=\"display:none;\"><code class=\"language-".toList

/-- The text that closes the code container. -/
def codeBodyClose : List Char :=
  "</code></pre>".toList

/-- The replacement callback `(match, language, code) => ...`. -/
def codeBlockHtml (language code : List Char) : List Char :=
  codeHeaderOpen ++ (if language ≠ [] then language else "code".toList) ++
    codeBodyOpen ++ language ++ "\">".toList ++ code ++ codeBodyClose

/-- The scan of `formattedContent.replace(<code block pattern>, callback)`. -/
def replaceLoop : Nat → List Char → List Char
  | 0, s => s
  | fuel + 1, s =>
    match matchCodeBlock s with
    | some (language, code, rest) => codeBlockHtml language code ++ replaceLoop fuel rest
    | none =>
      match s with
      | [] => []
      | c :: cs => c :: replaceLoop fuel cs

/-- The code block replacement of a message content. -/
def replaceCodeBlocks (content : List Char) : List Char :=
  replaceLoop (content.length + 1) content

/-- The explicit line break. -/
def br : List Char := "<br>".toList

/-- `formattedContent.replace(/\n/g, '<br>')`. -/
def replaceNewlines : List Char → List Char
  | [] => []
  | c :: cs => if c = '\n' then br ++ replaceNewlines cs else c :: replaceNewlines cs

/-- The value of `formattedContent` when the message block is emitted. -/
def formattedContent (content : List Char) : List Char :=
  replaceNewlines (replaceCodeBlocks content)

/-! ## Message blocks -/

/-- The template appended to `html` for a message. -/
def messageBlock (role formatted : List Char) : List Char :=
  "\n        <div class=\"".toList ++ role ++ "\">\n            <strong>".toList ++
    (if role = "human".toList then "You".toList else "Claude".toList) ++
    ":</strong>\n            <div>".toList ++ formatted ++
    "</div>\n        </div>\n      ".toList

/-- The template appended to `html` for a continuation point. -/
def continuationBlock (point : List Char) : List Char :=
  "\n            <div class=\"continuation-point\">\n                Continuation Point: [".toList ++
    point ++ "]\n            </div>\n          ".toList

/-- The body of `messages.forEach`: `html` is the document built so far. -/
def renderMessage (html : List Char) (message : Message) : List Char :=
  (continuationPoints message.content).foldl (fun h point => h ++ continuationBlock point)
    (html ++ messageBlock message.role (formattedContent message.content))

/-- The loop `messages.forEach(message => ...)` over the document built so far. -/
def renderMessages (html : List Char) (messages : List Message) : List Char :=
  messages.foldl renderMessage html

/-! ## The whole conversion -/

/-- The text appended to `html` after the last message. -/
def closeHtml : List Char :=
  "\n    </div>\n</body>\n</html>".toList

/-- The conversion of `processFile` from the text read from the input file to
the document handed to `writeFileSync`.  The argument `head` is the document
up to the end of its header, which holds the style sheet, the title and the
date and does not depend on the messages; `none` is the exit taken when no
message is parsed. -/
def processFile (head conversationText : List Char) : Option (List Char) :=
  match parseMessages conversationText with
  | none => none
  | some messages => some (renderMessages head messages ++ closeHtml)

/-! ## Notions used to state the properties -/

/-- The lines of a text: the pieces between its newline characters. -/
def textLines : List Char → List (List Char)
  | [] => [[]]
  | c :: cs =>
    if c = '\n' then [] :: textLines cs
    else
      match textLines cs with
      | l :: ls => (c :: l) :: ls
      | [] => [[c]]

/-- A line that begins with `Human:` or `Claude:`. -/
def beginsWithLabel (line : List Char) : Bool :=
  "Human:".toList.isPrefixOf line || "Claude:".toList.isPrefixOf line

/-- The lines of a text that begin with `Human:` or `Claude:`, in text order. -/
def labelLines (text : List Char) : List (List Char) :=
  (textLines text).filter beginsWithLabel

/-- The number of positions of `s` at which `pat` occurs. -/
def countOcc (pat : List Char) : List Char → Nat
  | [] => 0
  | c :: cs => (if pat.isPrefixOf (c :: cs) then 1 else 0) + countOcc pat cs

/-- A text all of whose characters are white space. -/
def isBlank (s : List Char) : Bool :=
  s.all isWhiteSpace

/-- The trimmed non-blank paragraphs of a text, in text order. -/
def nonBlankParagraphs (text : List Char) : List (List Char) :=
  ((paragraphs text).map trim).filter (fun p => p ≠ [])

/-- The role given to the message at index `i` by strict alternation. -/
def alternatingRole (i : Nat) : List Char :=
  if i % 2 = 0 then "human".toList else "assistant".toList

/-- The invariant of the `forEach` of the fallback: the roles pushed so far
alternate from `human`, and `isHuman` tells the parity of their number. -/
def FallbackInv (st : List Message × Bool) : Prop :=
  (∀ i m, st.1[i]? = some m → m.role = alternatingRole i) ∧
    st.2 = decide (st.1.length % 2 = 0)

/-- The text of a continuation marker: `CONTINUATION_POINT:`, a run `ws` of
white space, and the label between square brackets. -/
def markerText (ws label : List Char) : List Char :=
  "CONTINUATION_POINT:".toList ++ ws ++ '[' :: label ++ [']']

/-- The text `m` is a continuation marker of label `label`: the run of white
space after the colon may be empty, the label is a non-empty run of characters
other than `]`. -/
def IsMarker (m label : List Char) : Prop :=
  ∃ ws, (∀ c ∈ ws, isWhiteSpace c = true) ∧ label ≠ [] ∧ ']' ∉ label ∧
    m = markerText ws label

/-- A continuation marker of label `label` occurs in `s` at index `i`. -/
def MarkerAt (s : List Char) (i : Nat) (label : List Char) : Prop :=
  ∃ m, IsMarker m label ∧ m <+: s.drop i

/-- The labels of the non-overlapping occurrences of a continuation marker met
from left to right: either no marker occurs anywhere, or the text is `x`, the
leftmost marker `m`, and a remainder `y` that is scanned in the same way. -/
inductive MarkerScan : List Char → List (List Char) → Prop
  | done (s : List Char) : (∀ i label, ¬ MarkerAt s i label) → MarkerScan s []
  | found (x m label y : List Char) (labels : List (List Char)) :
      IsMarker m label →
      (∀ i, i < x.length → ∀ l, ¬ MarkerAt (x ++ m ++ y) i l) →
      MarkerScan y labels →
      MarkerScan (x ++ m ++ y) (label :: labels)


/-- Two consecutive newlines. -/
def blankLine : List Char := ['\n', '\n']

/-- The pieces of a text split on its runs of two or more newlines, taken
from the left and as long as possible: the last piece has no two consecutive
newlines; a piece `p` before a separator has none either and does not end in a
newline, the separator `run` is made of two or more newlines, and what follows
it does not begin with a newline. -/
inductive SplitOnBlankRuns : List Char → List (List Char) → Prop
  | last (p : List Char) : ¬ blankLine <:+: p → SplitOnBlankRuns p [p]
  | sep (p run rest : List Char) (pieces : List (List Char)) :
      ¬ blankLine <:+: p ++ ['\n'] →
      2 ≤ run.length → (∀ c ∈ run, c = '\n') →
      rest.head? ≠ some '\n' →
      SplitOnBlankRuns rest pieces →
      SplitOnBlankRuns (p ++ run ++ rest) (p :: pieces)


/-! # Properties -/

/-! ## Trimming -/

theorem dropWhile_eq_nil_iff_blank (s : List Char) :
    s.dropWhile isWhiteSpace = [] ↔ isBlank s = true := by
  simp [isBlank, List.dropWhile_eq_nil_iff]

theorem dropWhile_head_not_blank (s : List Char) (c : Char) (t : List Char)
    (h : s.dropWhile isWhiteSpace = c :: t) : isWhiteSpace c = false := by
  induction s with
  | nil => simp at h
  | cons a s ih =>
    by_cases ha : isWhiteSpace a = true
    · rw [List.dropWhile_cons_of_pos ha] at h
      exact ih h
    · rw [List.dropWhile_cons_of_neg ha] at h
      simp only [List.cons.injEq] at h
      rw [← h.1]
      simpa using ha

theorem trim_eq_nil_iff (s : List Char) : trim s = [] ↔ isBlank s = true := by
  unfold trim
  rw [List.reverse_eq_nil_iff, List.dropWhile_eq_nil_iff]
  constructor
  · intro h
    rw [← dropWhile_eq_nil_iff_blank]
    cases hd : s.dropWhile isWhiteSpace with
    | nil => rfl
    | cons c t =>
      have h1 := dropWhile_head_not_blank s c t hd
      have h2 := h c (by rw [hd]; simp)
      rw [h1] at h2
      cases h2
  · intro h x hx
    rw [(dropWhile_eq_nil_iff_blank s).2 h] at hx
    simp at hx

theorem isBlank_iff (s : List Char) : isBlank s = true ↔ ∀ c ∈ s, isWhiteSpace c = true := by
  simp [isBlank]

/-! ## The fallback loop -/

theorem fallbackStep_contents (st : List Message × Bool) (para : List Char) :
    (fallbackStep st para).1.map Message.content =
      st.1.map Message.content ++ ([trim para].filter (fun p => p ≠ [])) := by
  unfold fallbackStep
  by_cases h : trim para = []
  · simp [h]
  · simp [h]

theorem fallbackStep_inv (st : List Message × Bool) (para : List Char)
    (hinv : FallbackInv st) : FallbackInv (fallbackStep st para) := by
  unfold fallbackStep
  by_cases h : trim para = []
  · simpa [h] using hinv
  · obtain ⟨hroles, hflag⟩ := hinv
    simp only [ne_eq, h, not_false_eq_true, if_true]
    refine ⟨?_, ?_⟩
    · intro i m hm
      rcases Nat.lt_trichotomy i st.1.length with hi | hi | hi
      · rw [List.getElem?_append_left hi] at hm
        exact hroles i m hm
      · subst hi
        simp only [List.getElem?_concat_length, Option.some.injEq] at hm
        subst hm
        simp only [alternatingRole]
        rw [hflag]
        by_cases hp : st.1.length % 2 = 0
        · simp [hp]
        · simp [hp]
      · rw [List.getElem?_eq_none (by simp; omega)] at hm
        cases hm
    · simp only [List.length_append, List.length_singleton]
      rw [hflag]
      by_cases hp : st.1.length % 2 = 0
      · have : ¬ (st.1.length + 1) % 2 = 0 := by omega
        simp [hp, this]
      · have : (st.1.length + 1) % 2 = 0 := by omega
        simp [hp, this]

theorem foldl_fallbackStep_contents (ps : List (List Char)) (st : List Message × Bool) :
    (ps.foldl fallbackStep st).1.map Message.content =
      st.1.map Message.content ++ (ps.map trim).filter (fun p => p ≠ []) := by
  induction ps generalizing st with
  | nil => simp
  | cons p ps ih =>
    rw [List.foldl_cons, ih, fallbackStep_contents, List.append_assoc, List.map_cons,
      List.filter_cons]
    by_cases h : trim p = []
    · simp [h]
    · simp [h]

theorem foldl_fallbackStep_inv (ps : List (List Char)) (st : List Message × Bool)
    (hinv : FallbackInv st) : FallbackInv (ps.foldl fallbackStep st) := by
  induction ps generalizing st with
  | nil => simpa using hinv
  | cons p ps ih =>
    rw [List.foldl_cons]
    exact ih _ (fallbackStep_inv st p hinv)

theorem fallbackMessages_contents (text : List Char) :
    (fallbackMessages text).map Message.content = nonBlankParagraphs text := by
  unfold fallbackMessages nonBlankParagraphs
  rw [foldl_fallbackStep_contents]
  simp

theorem fallbackMessages_roles (text : List Char) (i : Nat) (m : Message)
    (hm : (fallbackMessages text)[i]? = some m) : m.role = alternatingRole i := by
  have hinv : FallbackInv ((paragraphs text).foldl fallbackStep ([], true)) := by
    apply foldl_fallbackStep_inv
    refine ⟨?_, ?_⟩
    · intro i m hm
      simp at hm
    · simp
  exact hinv.1 i m hm

theorem nonBlankParagraphs_ne_nil_iff (text : List Char) :
    nonBlankParagraphs text ≠ [] ↔ ∃ p ∈ paragraphs text, isBlank p = false := by
  unfold nonBlankParagraphs
  constructor
  · intro h
    obtain ⟨q, hq⟩ := List.exists_mem_of_ne_nil _ h
    rw [List.mem_filter, List.mem_map] at hq
    obtain ⟨⟨p, hp, hpq⟩, hne⟩ := hq
    refine ⟨p, hp, ?_⟩
    cases hb : isBlank p with
    | false => rfl
    | true =>
      rw [← hpq, (trim_eq_nil_iff p).2 hb] at hne
      simp at hne
  · rintro ⟨p, hp, hb⟩ h
    have hmem : trim p ∈ ((paragraphs text).map trim).filter (fun p => p ≠ []) := by
      rw [List.mem_filter, List.mem_map]
      refine ⟨⟨p, hp, rfl⟩, ?_⟩
      have : trim p ≠ [] := by
        intro ht
        rw [(trim_eq_nil_iff p).1 ht] at hb
        cases hb
      simpa using this
    rw [h] at hmem
    cases hmem

/-! ## The paragraph split -/

theorem matchBlankRun_some (s rest : List Char) (h : matchBlankRun s = some rest) :
    ∃ pre, s = pre ++ rest ∧ (∀ x ∈ pre, x = '\n') ∧ 2 ≤ pre.length := by
  unfold matchBlankRun at h
  split at h
  · rename_i cs
    simp only [Option.some.injEq] at h
    refine ⟨'\n' :: '\n' :: cs.takeWhile (fun c => c == '\n'), ?_, ?_, ?_⟩
    · rw [← h]
      simp [List.takeWhile_append_dropWhile]
    · intro x hx
      simp only [List.mem_cons] at hx
      rcases hx with hx | hx | hx
      · exact hx
      · exact hx
      · simpa using List.mem_takeWhile_imp hx
    · simp
  · cases h

theorem splitLoop_mem_subset (fuel : Nat) (cur s p : List Char)
    (hp : p ∈ splitLoop fuel cur s) (c : Char) (hc : c ∈ p) : c ∈ cur ∨ c ∈ s := by
  induction fuel generalizing cur s with
  | zero =>
    simp only [splitLoop, List.mem_singleton] at hp
    subst hp
    exact Or.inl hc
  | succ fuel ih =>
    cases s with
    | nil =>
      simp only [splitLoop, List.mem_singleton] at hp
      subst hp
      exact Or.inl hc
    | cons a cs =>
      simp only [splitLoop] at hp
      cases hm : matchBlankRun (a :: cs) with
      | some rest =>
        rw [hm] at hp
        simp only [List.mem_cons] at hp
        rcases hp with hp | hp
        · subst hp
          exact Or.inl hc
        · obtain ⟨pre, hpre, _, _⟩ := matchBlankRun_some _ _ hm
          rcases ih [] rest hp with h | h
          · cases h
          · right
            rw [hpre]
            exact List.mem_append_right _ h
      | none =>
        rw [hm] at hp
        rcases ih (cur ++ [a]) cs hp with h | h
        · rw [List.mem_append, List.mem_singleton] at h
          rcases h with h | h
          · exact Or.inl h
          · right
            rw [h]
            exact List.mem_cons_self _ _
        · right
          exact List.mem_cons_of_mem _ h

theorem splitLoop_cover (fuel : Nat) (cur s : List Char) (hfuel : s.length < fuel)
    (c : Char) (hc : c ∈ cur ∨ c ∈ s) (hnl : c ≠ '\n') :
    ∃ p ∈ splitLoop fuel cur s, c ∈ p := by
  induction fuel generalizing cur s with
  | zero => omega
  | succ fuel ih =>
    cases s with
    | nil =>
      rcases hc with hc | hc
      · exact ⟨cur, by simp [splitLoop], hc⟩
      · cases hc
    | cons a cs =>
      simp only [splitLoop]
      simp only [List.length_cons] at hfuel
      cases hm : matchBlankRun (a :: cs) with
      | some rest =>
        obtain ⟨pre, hpre, hall, hlen⟩ := matchBlankRun_some _ _ hm
        rcases hc with hc | hc
        · exact ⟨cur, by simp, hc⟩
        · rw [hpre, List.mem_append] at hc
          rcases hc with hc | hc
          · exact absurd (hall c hc) hnl
          · have hlt : rest.length < fuel := by
              have := congrArg List.length hpre
              simp only [List.length_cons, List.length_append] at this
              omega
            obtain ⟨p, hp, hcp⟩ := ih [] rest hlt (Or.inr hc)
            exact ⟨p, by simp [hp], hcp⟩
      | none =>
        have hlt : cs.length < fuel := by omega
        apply ih (cur ++ [a]) cs hlt
        rcases hc with hc | hc
        · exact Or.inl (List.mem_append_left _ hc)
        · rw [List.mem_cons] at hc
          rcases hc with hc | hc
          · left
            rw [hc]
            simp
          · exact Or.inr hc

theorem paragraphs_blank_iff (text : List Char) :
    (∀ p ∈ paragraphs text, isBlank p = true) ↔ isBlank text = true := by
  constructor
  · intro h
    rw [isBlank_iff]
    intro c hc
    by_cases hnl : c = '\n'
    · rw [hnl]
      rfl
    · obtain ⟨p, hp, hcp⟩ := splitLoop_cover (text.length + 1) [] text (by omega) c (Or.inr hc) hnl
      exact (isBlank_iff p).1 (h p hp) c hcp
  · intro h p hp
    rw [isBlank_iff]
    intro c hc
    rcases splitLoop_mem_subset _ _ _ _ hp c hc with h1 | h1
    · cases h1
    · exact (isBlank_iff text).1 h c h1

theorem fallbackMessages_eq_nil_iff (text : List Char) :
    fallbackMessages text = [] ↔ isBlank text = true := by
  rw [← paragraphs_blank_iff]
  have h1 : fallbackMessages text = [] ↔ nonBlankParagraphs text = [] := by
    rw [← fallbackMessages_contents]
    simp
  rw [h1]
  constructor
  · intro h p hp
    cases hb : isBlank p with
    | true => rfl
    | false => exact absurd h ((nonBlankParagraphs_ne_nil_iff text).2 ⟨p, hp, hb⟩)
  · intro h
    by_contra hne
    obtain ⟨p, hp, hb⟩ := (nonBlankParagraphs_ne_nil_iff text).1 hne
    rw [h p hp] at hb
    cases hb

/-! ## The primary loop -/

theorem matchLabel_some (s label rest : List Char) (h : matchLabel s = some (label, rest)) :
    (label = "Human".toList ∧ s = "Human:".toList ++ rest) ∨
      (label = "Claude".toList ∧ s = "Claude:".toList ++ rest) := by
  unfold matchLabel at h
  split at h
  · rename_i hp
    simp only [Option.some.injEq, Prod.mk.injEq] at h
    left
    refine ⟨h.1.symm, ?_⟩
    rw [← h.2]
    have hp2 := List.isPrefixOf_iff_prefix.1 hp
    obtain ⟨t, ht⟩ := hp2
    rw [← ht]
    simp
  · split at h
    · rename_i hp
      simp only [Option.some.injEq, Prod.mk.injEq] at h
      right
      refine ⟨h.1.symm, ?_⟩
      rw [← h.2]
      obtain ⟨t, ht⟩ := List.isPrefixOf_iff_prefix.1 hp
      rw [← ht]
      simp
    · cases h

theorem messagePattern_not_blank (s : List Char) (r : List Char × List Char × List Char)
    (h : messagePattern s = some r) : isBlank s = false := by
  unfold messagePattern at h
  cases hl : matchLabel s with
  | none => rw [hl] at h; cases h
  | some lr =>
    obtain ⟨label, rest⟩ := lr
    rcases matchLabel_some s label rest hl with ⟨_, hs⟩ | ⟨_, hs⟩
    · rw [hs]; rfl
    · rw [hs]; rfl

theorem execMessages_not_blank (fuel : Nat) (prev : Option Char) (s : List Char)
    (h : execMessages fuel prev s ≠ []) : isBlank s = false := by
  induction fuel generalizing prev s with
  | zero => simp [execMessages] at h
  | succ fuel ih =>
    simp only [execMessages] at h
    cases hm : (if atLineStart prev = true then messagePattern s else none) with
    | some r =>
      by_cases hp : atLineStart prev = true
      · rw [if_pos hp] at hm
        exact messagePattern_not_blank s r hm
      · rw [if_neg hp] at hm
        cases hm
    | none =>
      rw [hm] at h
      cases s with
      | nil => simp at h
      | cons c cs =>
        simp only at h
        have := ih (some c) cs h
        simp only [isBlank, List.all_cons, Bool.and_eq_false_imp] at this ⊢
        intro _
        exact this

/-! ## Lines that begin with a label -/

theorem textLines_mem_subset (s l : List Char) (hl : l ∈ textLines s) (c : Char)
    (hc : c ∈ l) : c ∈ s := by
  induction s generalizing l with
  | nil =>
    simp only [textLines, List.mem_singleton] at hl
    subst hl
    cases hc
  | cons a s ih =>
    simp only [textLines] at hl
    by_cases ha : a = '\n'
    · rw [if_pos ha] at hl
      rw [List.mem_cons] at hl
      rcases hl with hl | hl
      · subst hl
        cases hc
      · exact List.mem_cons_of_mem _ (ih l hl hc)
    · rw [if_neg ha] at hl
      cases hs : textLines s with
      | nil =>
        rw [hs] at hl
        simp only [List.mem_singleton] at hl
        subst hl
        simp only [List.mem_singleton] at hc
        rw [hc]
        exact List.mem_cons_self _ _
      | cons l0 ls =>
        rw [hs] at hl
        simp only [List.mem_cons] at hl
        rcases hl with hl | hl
        · subst hl
          rw [List.mem_cons] at hc
          rcases hc with hc | hc
          · rw [hc]
            exact List.mem_cons_self _ _
          · exact List.mem_cons_of_mem _ (ih l0 (by rw [hs]; exact List.mem_cons_self _ _) hc)
        · exact List.mem_cons_of_mem _ (ih l (by rw [hs]; exact List.mem_cons_of_mem _ hl) hc)

theorem beginsWithLabel_not_blank (l : List Char) (h : beginsWithLabel l = true) :
    ∃ c ∈ l, isWhiteSpace c = false := by
  unfold beginsWithLabel at h
  rw [Bool.or_eq_true] at h
  rcases h with h | h
  · obtain ⟨t, ht⟩ := List.isPrefixOf_iff_prefix.1 h
    exact ⟨'H', by rw [← ht]; simp, by decide⟩
  · obtain ⟨t, ht⟩ := List.isPrefixOf_iff_prefix.1 h
    exact ⟨'C', by rw [← ht]; simp, by decide⟩

theorem labelLines_eq_nil_of_blank (text : List Char) (h : isBlank text = true) :
    labelLines text = [] := by
  unfold labelLines
  rw [List.filter_eq_nil_iff]
  intro l hl hb
  obtain ⟨c, hc, hw⟩ := beginsWithLabel_not_blank l hb
  have := (isBlank_iff text).1 h c (textLines_mem_subset text l hl c hc)
  rw [hw] at this
  cases this

theorem primaryMessages_eq_nil_of_blank (text : List Char) (h : isBlank text = true) :
    primaryMessages text = [] := by
  by_contra hne
  have := execMessages_not_blank _ _ _ hne
  rw [h] at this
  cases this

theorem parseMessages_eq_none_iff (text : List Char) :
    parseMessages text = none ↔ isBlank text = true := by
  unfold parseMessages
  simp only [List.length_eq_zero]
  constructor
  · intro h
    by_cases hp : primaryMessages text = []
    · rw [if_pos hp] at h
      by_cases hf : fallbackMessages text = []
      · exact (fallbackMessages_eq_nil_iff text).1 hf
      · rw [if_neg hf] at h
        cases h
    · rw [if_neg hp, if_neg hp] at h
      cases h
  · intro h
    rw [if_pos (primaryMessages_eq_nil_of_blank text h),
      if_pos ((fallbackMessages_eq_nil_iff text).2 h)]

theorem parseMessages_some_ne_nil (text : List Char) (ms : List Message)
    (h : parseMessages text = some ms) : ms ≠ [] := by
  unfold parseMessages at h
  simp only [List.length_eq_zero] at h
  by_cases hp : primaryMessages text = []
  · rw [if_pos hp] at h
    by_cases hf : fallbackMessages text = []
    · rw [if_pos hf] at h
      cases h
    · rw [if_neg hf] at h
      simp only [Option.some.injEq] at h
      rw [← h]
      exact hf
  · rw [if_neg hp, if_neg hp] at h
    simp only [Option.some.injEq] at h
    rw [← h]
    exact hp

/-! ## The code block pattern -/

theorem fence_prefix_drop (s : List Char) (h : fence.isPrefixOf s = true) :
    s = fence ++ s.drop 3 := by
  obtain ⟨t, ht⟩ := List.isPrefixOf_iff_prefix.1 h
  rw [← ht]
  simp [fence]

theorem lazyCode_some (s code rest : List Char) (h : lazyCode s = some (code, rest)) :
    s = code ++ fence ++ rest := by
  induction s generalizing code rest with
  | nil => simp [lazyCode] at h
  | cons c cs ih =>
    simp only [lazyCode] at h
    by_cases hp : fence.isPrefixOf (c :: cs) = true
    · rw [if_pos hp] at h
      simp only [Option.some.injEq, Prod.mk.injEq] at h
      rw [← h.1, ← h.2]
      simpa using fence_prefix_drop (c :: cs) hp
    · rw [if_neg hp] at h
      cases hl : lazyCode cs with
      | none => rw [hl] at h; cases h
      | some r =>
        obtain ⟨code', rest'⟩ := r
        rw [hl] at h
        simp only [Option.some.injEq, Prod.mk.injEq] at h
        rw [← h.1, ← h.2, ih code' rest' hl]
        simp

theorem matchCodeBlock_some (s language code rest : List Char)
    (h : matchCodeBlock s = some (language, code, rest)) :
    s = fence ++ language ++ '\n' :: code ++ fence ++ rest ∧
      ∀ c ∈ language, isWordChar c = true := by
  unfold matchCodeBlock at h
  by_cases hp : fence.isPrefixOf s = true
  · rw [if_pos hp] at h
    cases hd : (s.drop 3).dropWhile isWordChar with
    | nil => rw [hd] at h; cases h
    | cons a body =>
      rw [hd] at h
      by_cases ha : a = '\n'
      · subst ha
        simp only at h
        cases hl : lazyCode body with
        | none => rw [hl] at h; cases h
        | some r =>
          obtain ⟨code', rest'⟩ := r
          rw [hl] at h
          simp only [Option.some.injEq, Prod.mk.injEq] at h
          obtain ⟨h1, h2, h3⟩ := h
          subst h2 h3
          refine ⟨?_, ?_⟩
          · have e1 := fence_prefix_drop s hp
            have e2 := List.takeWhile_append_dropWhile isWordChar (s.drop 3)
            rw [hd, h1, lazyCode_some body code' rest' hl] at e2
            rw [e1, ← e2]
            simp
          · intro c hc
            rw [← h1] at hc
            exact List.mem_takeWhile_imp hc
      · split at h
        · rename_i heq
          simp only [List.cons.injEq] at heq
          exact absurd heq.1 ha
        · cases h
  · rw [if_neg hp] at h
    cases h

theorem matchCodeBlock_eq_none (s : List Char) (h : ¬ fence <+: s) :
    matchCodeBlock s = none := by
  unfold matchCodeBlock
  rw [if_neg]
  rw [List.isPrefixOf_iff_prefix]
  exact h

theorem matchCodeBlock_rest_length (s language code rest : List Char)
    (h : matchCodeBlock s = some (language, code, rest)) : rest.length < s.length := by
  have := congrArg List.length (matchCodeBlock_some s language code rest h).1
  simp only [List.length_append, List.length_cons, fence, List.length_nil] at this
  omega

theorem replaceLoop_fuel (fuel fuel2 : Nat) (s : List Char) (h1 : s.length < fuel)
    (h2 : s.length < fuel2) : replaceLoop fuel s = replaceLoop fuel2 s := by
  induction fuel generalizing fuel2 s with
  | zero => omega
  | succ fuel ih =>
    cases fuel2 with
    | zero => omega
    | succ fuel2 =>
      simp only [replaceLoop]
      cases hm : matchCodeBlock s with
      | some r =>
        obtain ⟨language, code, rest⟩ := r
        have := matchCodeBlock_rest_length s language code rest hm
        simp only
        rw [ih fuel2 rest (by omega) (by omega)]
      | none =>
        cases s with
        | nil => rfl
        | cons c cs =>
          simp only [List.length_cons] at h1 h2
          simp only
          rw [ih fuel2 cs (by omega) (by omega)]

theorem replaceCodeBlocks_nil : replaceCodeBlocks [] = [] := by
  simp [replaceCodeBlocks, replaceLoop, matchCodeBlock, fence]

theorem replaceCodeBlocks_of_match (s language code rest : List Char)
    (h : matchCodeBlock s = some (language, code, rest)) :
    replaceCodeBlocks s = codeBlockHtml language code ++ replaceCodeBlocks rest := by
  have hlen := matchCodeBlock_rest_length s language code rest h
  have e : replaceLoop (s.length + 1) s =
      codeBlockHtml language code ++ replaceLoop s.length rest := by
    simp only [replaceLoop, h]
  unfold replaceCodeBlocks
  rw [e, replaceLoop_fuel s.length (rest.length + 1) rest hlen (by omega)]

theorem replaceCodeBlocks_of_no_match (c : Char) (cs : List Char)
    (h : matchCodeBlock (c :: cs) = none) :
    replaceCodeBlocks (c :: cs) = c :: replaceCodeBlocks cs := by
  unfold replaceCodeBlocks
  simp only [replaceLoop, h, List.length_cons]

theorem replaceCodeBlocks_of_no_match_anywhere (s : List Char)
    (h : ∀ t, t <:+ s → matchCodeBlock t = none) : replaceCodeBlocks s = s := by
  induction s with
  | nil => exact replaceCodeBlocks_nil
  | cons c cs ih =>
    rw [replaceCodeBlocks_of_no_match c cs (h _ (List.suffix_refl _)),
      ih (fun t ht => h t (ht.trans (List.suffix_cons c cs)))]

theorem replaceCodeBlocks_append_of_no_backtick (p s : List Char) (hp : backtick ∉ p) :
    replaceCodeBlocks (p ++ s) = p ++ replaceCodeBlocks s := by
  induction p with
  | nil => rfl
  | cons c cs ih =>
    have hc : c ≠ backtick := fun e => hp (by rw [e]; exact List.mem_cons_self _ _)
    have hm : matchCodeBlock (c :: (cs ++ s)) = none := by
      apply matchCodeBlock_eq_none
      simp only [fence, List.cons_prefix_cons, not_and]
      intro e
      exact absurd e.symm hc
    rw [List.cons_append, replaceCodeBlocks_of_no_match c _ hm,
      ih (fun hmem => hp (List.mem_cons_of_mem _ hmem))]
    rfl

theorem fence_not_prefix_of_body (b s : List Char) (hb : b ≠ [])
    (hfence : ¬ fence <:+: b) (hlast : b.getLast? ≠ some backtick) :
    ¬ fence <+: b ++ fence ++ s := by
  intro h
  match b, hb with
  | [x], _ =>
    simp only [fence, List.cons_append, List.nil_append, List.cons_prefix_cons] at h
    exact hlast (by simp [h.1])
  | [x, y], _ =>
    simp only [fence, List.cons_append, List.nil_append, List.cons_prefix_cons] at h
    exact hlast (by simp [h.2.1])
  | x :: y :: z :: t, _ =>
    simp only [fence, List.cons_append, List.cons_prefix_cons] at h
    obtain ⟨rfl, rfl, rfl, _⟩ := h
    apply hfence
    exact ⟨[], t, by simp [fence]⟩

theorem lazyCode_body (b s : List Char) (hfence : ¬ fence <:+: b)
    (hlast : b.getLast? ≠ some backtick) : lazyCode (b ++ fence ++ s) = some (b, s) := by
  induction b with
  | nil => simp [lazyCode, fence]
  | cons c cs ih =>
    have hnp := fence_not_prefix_of_body (c :: cs) s (by simp) hfence hlast
    rw [← List.isPrefixOf_iff_prefix] at hnp
    have hcs : lazyCode (cs ++ fence ++ s) = some (cs, s) := by
      apply ih
      · intro hin
        exact hfence (hin.trans (List.infix_cons (List.infix_refl _)))
      · cases cs with
        | nil => simp
        | cons d ds => simpa [List.getLast?_cons_cons] using hlast
    have e : (c :: cs) ++ fence ++ s = c :: (cs ++ fence ++ s) := rfl
    rw [e] at hnp ⊢
    rw [lazyCode, if_neg hnp, hcs]

theorem matchCodeBlock_fenced (l b s : List Char) (hl : ∀ c ∈ l, isWordChar c = true)
    (hfence : ¬ fence <:+: b) (hlast : b.getLast? ≠ some backtick) :
    matchCodeBlock (fence ++ l ++ '\n' :: b ++ fence ++ s) = some (l, b, s) := by
  have hpre : fence.isPrefixOf (fence ++ l ++ '\n' :: b ++ fence ++ s) = true := by
    rw [List.isPrefixOf_iff_prefix]
    exact ⟨l ++ '\n' :: b ++ fence ++ s, by simp⟩
  have hdrop : (fence ++ l ++ '\n' :: b ++ fence ++ s).drop 3 = l ++ '\n' :: (b ++ fence ++ s) := by
    simp [fence]
  have htake : (l ++ '\n' :: (b ++ fence ++ s)).takeWhile isWordChar = l := by
    rw [List.takeWhile_append_of_pos hl]
    simp [List.takeWhile_cons, show isWordChar '\n' = false by decide]
  have hdw : (l ++ '\n' :: (b ++ fence ++ s)).dropWhile isWordChar = '\n' :: (b ++ fence ++ s) := by
    rw [List.dropWhile_append_of_pos hl]
    simp [List.dropWhile_cons, show isWordChar '\n' = false by decide]
  unfold matchCodeBlock
  rw [if_pos hpre, hdrop, hdw, htake]
  simp only
  rw [lazyCode_body b s hfence hlast]

/-! ## Line breaks -/

theorem replaceNewlines_append (a b : List Char) :
    replaceNewlines (a ++ b) = replaceNewlines a ++ replaceNewlines b := by
  induction a with
  | nil => rfl
  | cons c cs ih =>
    rw [List.cons_append, replaceNewlines, replaceNewlines, ih]
    by_cases hc : c = '\n'
    · rw [if_pos hc, if_pos hc, List.append_assoc]
    · rw [if_neg hc, if_neg hc, List.cons_append]

theorem replaceNewlines_of_no_newline (s : List Char) (h : '\n' ∉ s) :
    replaceNewlines s = s := by
  induction s with
  | nil => rfl
  | cons c cs ih =>
    have hc : c ≠ '\n' := fun e => h (by rw [e]; exact List.mem_cons_self _ _)
    simp only [replaceNewlines]
    rw [if_neg hc, ih (fun hm => h (List.mem_cons_of_mem _ hm))]

theorem newline_not_mem_replaceNewlines (s : List Char) : '\n' ∉ replaceNewlines s := by
  induction s with
  | nil => simp [replaceNewlines]
  | cons c cs ih =>
    simp only [replaceNewlines]
    by_cases hc : c = '\n'
    · rw [if_pos hc]
      intro hm
      rw [List.mem_append] at hm
      rcases hm with hm | hm
      · revert hm
        decide
      · exact ih hm
    · rw [if_neg hc]
      intro hm
      rw [List.mem_cons] at hm
      rcases hm with hm | hm
      · exact hc hm.symm
      · exact ih hm

theorem newline_not_word (l : List Char) (hl : ∀ c ∈ l, isWordChar c = true) : '\n' ∉ l := by
  intro hm
  have := hl _ hm
  revert this
  decide

theorem replaceNewlines_codeBlockHtml (l b : List Char) (hl : ∀ c ∈ l, isWordChar c = true) :
    replaceNewlines (codeBlockHtml l b) = codeBlockHtml l (replaceNewlines b) := by
  have h0 := replaceNewlines_of_no_newline l (newline_not_word l hl)
  have h1 : replaceNewlines codeHeaderOpen = codeHeaderOpen :=
    replaceNewlines_of_no_newline _ (by decide)
  have h2 : replaceNewlines codeBodyOpen = codeBodyOpen :=
    replaceNewlines_of_no_newline _ (by decide)
  have h3 : replaceNewlines codeBodyClose = codeBodyClose :=
    replaceNewlines_of_no_newline _ (by decide)
  have h4 : replaceNewlines "code".toList = "code".toList :=
    replaceNewlines_of_no_newline _ (by decide)
  have h5 : replaceNewlines "\">".toList = "\">".toList :=
    replaceNewlines_of_no_newline _ (by decide)
  unfold codeBlockHtml
  by_cases hne : l = []
  · subst hne
    simp only [ne_eq, not_true_eq_false, if_false, replaceNewlines_append, h0, h1, h2, h3,
      h4, h5]
  · simp only [ne_eq, hne, not_false_eq_true, if_true, replaceNewlines_append, h0, h1, h2,
      h3, h5]

theorem isPrefixOf_replaceNewlines (pat s : List Char) (h1 : '\n' ∉ pat) (h2 : '<' ∉ pat) :
    pat.isPrefixOf (replaceNewlines s) = pat.isPrefixOf s := by
  induction pat generalizing s with
  | nil => simp
  | cons p ps ih =>
    have hp1 : p ≠ '\n' := fun e => h1 (by rw [e]; exact List.mem_cons_self _ _)
    have hp2 : p ≠ '<' := fun e => h2 (by rw [e]; exact List.mem_cons_self _ _)
    have ih2 := fun t => ih t (fun hm => h1 (List.mem_cons_of_mem _ hm))
      (fun hm => h2 (List.mem_cons_of_mem _ hm))
    cases s with
    | nil => simp [replaceNewlines]
    | cons a t =>
      simp only [replaceNewlines]
      by_cases ha : a = '\n'
      · rw [if_pos ha, ha]
        have e1 : (p == '<') = false := by simpa using hp2
        have e2 : (p == '\n') = false := by simpa using hp1
        simp [br, List.isPrefixOf, e1, e2]
      · rw [if_neg ha]
        simp only [List.isPrefixOf, ih2 t]

theorem countOcc_br_replaceNewlines (s : List Char) :
    countOcc br (replaceNewlines s) = s.count '\n' + countOcc br s := by
  induction s with
  | nil => rfl
  | cons c cs ih =>
    simp only [replaceNewlines]
    by_cases hc : c = '\n'
    · rw [if_pos hc, hc]
      have e1 : countOcc br (br ++ replaceNewlines cs) = 1 + countOcc br (replaceNewlines cs) := by
        simp [countOcc, br, List.isPrefixOf]
      have e2 : countOcc br ('\n' :: cs) = countOcc br cs := by
        simp [countOcc, br, List.isPrefixOf]
      rw [e1, e2, ih, List.count_cons_self]
      omega
    · rw [if_neg hc]
      have e1 : br.isPrefixOf (c :: replaceNewlines cs) = br.isPrefixOf (c :: cs) := by
        simp only [br, String.toList, List.isPrefixOf]
        rw [isPrefixOf_replaceNewlines _ cs (by decide) (by decide)]
      have e2 : (c :: cs).count '\n' = cs.count '\n' := by
        rw [List.count_cons_of_ne (Ne.symm hc)]
      simp only [countOcc]
      rw [e1, e2, ih]
      omega

/-! ## Formatting of a content -/

theorem replaceCodeBlocks_of_no_fence (s : List Char) (h : ¬ fence <:+: s) :
    replaceCodeBlocks s = s := by
  apply replaceCodeBlocks_of_no_match_anywhere
  intro t ht
  apply matchCodeBlock_eq_none
  intro hp
  exact h (hp.isInfix.trans ht.isInfix)

theorem replaceCodeBlocks_of_no_newline (s : List Char) (h : '\n' ∉ s) :
    replaceCodeBlocks s = s := by
  apply replaceCodeBlocks_of_no_match_anywhere
  intro t ht
  cases hm : matchCodeBlock t with
  | none => rfl
  | some r =>
    obtain ⟨language, code, rest⟩ := r
    exfalso
    apply h
    apply ht.subset
    rw [(matchCodeBlock_some t language code rest hm).1]
    simp

theorem replaceCodeBlocks_fenced (p l b s : List Char)
    (hp : ¬ fence <:+: p) (hplast : p.getLast? ≠ some backtick)
    (hl : ∀ c ∈ l, isWordChar c = true)
    (hb : ¬ fence <:+: b) (hblast : b.getLast? ≠ some backtick) :
    replaceCodeBlocks (p ++ (fence ++ l ++ '\n' :: b ++ fence ++ s)) =
      p ++ codeBlockHtml l b ++ replaceCodeBlocks s := by
  induction p with
  | nil =>
    rw [List.nil_append, List.nil_append]
    exact replaceCodeBlocks_of_match _ l b s (matchCodeBlock_fenced l b s hl hb hblast)
  | cons c cs ih =>
    have hnp : ¬ fence <+: (c :: cs) ++ fence ++ (l ++ '\n' :: b ++ fence ++ s) :=
      fence_not_prefix_of_body (c :: cs) _ (by simp) hp hplast
    have e : (c :: cs) ++ fence ++ (l ++ '\n' :: b ++ fence ++ s) =
        c :: (cs ++ (fence ++ l ++ '\n' :: b ++ fence ++ s)) := by simp
    rw [e] at hnp
    have hcs : replaceCodeBlocks (cs ++ (fence ++ l ++ '\n' :: b ++ fence ++ s)) =
        cs ++ codeBlockHtml l b ++ replaceCodeBlocks s := by
      apply ih
      · intro hin
        exact hp (hin.trans (List.infix_cons (List.infix_refl _)))
      · cases cs with
        | nil => simp
        | cons d ds => simpa [List.getLast?_cons_cons] using hplast
    rw [List.cons_append, replaceCodeBlocks_of_no_match c _
      (matchCodeBlock_eq_none _ hnp), hcs]
    rfl

theorem getLast?_ne_of_not_mem (p : List Char) (c : Char) (h : c ∉ p) :
    p.getLast? ≠ some c := by
  intro e
  exact h (List.mem_of_getLast?_eq_some e)

theorem not_fence_infix_of_no_backtick (p : List Char) (h : backtick ∉ p) :
    ¬ fence <:+: p := by
  intro hin
  apply h
  apply hin.subset
  simp [fence]

/-! ## Contents captured by the primary pattern -/

theorem lazyContent_no_terminator (s : List Char) (c : Char) (hc : c ∈ (lazyContent s).1) :
    isLineTerminator c = false := by
  induction s with
  | nil => simp [lazyContent] at hc
  | cons a cs ih =>
    simp only [lazyContent] at hc
    by_cases hl : lookaheadEnd (a :: cs) = true
    · rw [if_pos hl] at hc
      cases hc
    · rw [if_neg hl] at hc
      simp only [List.mem_cons] at hc
      rcases hc with hc | hc
      · rw [hc]
        simp only [lookaheadEnd, Bool.or_eq_true, not_or] at hl
        simpa using hl.2
      · exact ih hc

theorem mem_of_mem_trim (s : List Char) (c : Char) (hc : c ∈ trim s) : c ∈ s := by
  unfold trim at hc
  rw [List.mem_reverse] at hc
  have h1 := (List.dropWhile_suffix isWhiteSpace).subset hc
  rw [List.mem_reverse] at h1
  exact (List.dropWhile_suffix isWhiteSpace).subset h1

theorem execMessages_no_newline (fuel : Nat) (prev : Option Char) (s : List Char)
    (m : Message) (hm : m ∈ execMessages fuel prev s) : '\n' ∉ m.content := by
  induction fuel generalizing prev s with
  | zero => simp [execMessages] at hm
  | succ fuel ih =>
    simp only [execMessages] at hm
    cases hmatch : (if atLineStart prev = true then messagePattern s else none) with
    | some r =>
      obtain ⟨label, content, rest⟩ := r
      rw [hmatch] at hm
      simp only [List.mem_cons] at hm
      rcases hm with hm | hm
      · by_cases hp : atLineStart prev = true
        · rw [if_pos hp] at hmatch
          unfold messagePattern at hmatch
          cases hl : matchLabel s with
          | none => rw [hl] at hmatch; cases hmatch
          | some lr =>
            obtain ⟨label', afterColon⟩ := lr
            rw [hl] at hmatch
            simp only [Option.some.injEq, Prod.mk.injEq] at hmatch
            intro hin
            rw [hm] at hin
            simp only at hin
            have h1 := mem_of_mem_trim _ _ hin
            rw [← hmatch.2.1] at h1
            have h2 := lazyContent_no_terminator _ _ h1
            revert h2
            decide
        · rw [if_neg hp] at hmatch
          cases hmatch
      · exact ih _ _ hm
    | none =>
      rw [hmatch] at hm
      cases s with
      | nil => simp at hm
      | cons c cs => exact ih _ _ hm

theorem formattedContent_of_no_newline (s : List Char) (h : '\n' ∉ s) : formattedContent s = s := by
  unfold formattedContent
  rw [replaceCodeBlocks_of_no_newline s h, replaceNewlines_of_no_newline s h]

/-! ## The continuation pattern -/

theorem continuationPattern_some (s label rest : List Char)
    (h : continuationPattern s = some (label, rest)) :
    ∃ m, IsMarker m label ∧ s = m ++ rest := by
  unfold continuationPattern at h
  by_cases hp : "CONTINUATION_POINT:".toList.isPrefixOf s = true
  · rw [if_pos hp] at h
    obtain ⟨t0, ht0⟩ := List.isPrefixOf_iff_prefix.1 hp
    have hdrop : s.drop 19 = t0 := by
      rw [← ht0]
      simp
    rw [hdrop] at h
    have hsplit := List.takeWhile_append_dropWhile isWhiteSpace t0
    split at h
    · rename_i t heq
      have hsplit2 := List.takeWhile_append_dropWhile (fun c => c != ']') t
      split at h
      · rename_i rest0 heq2
        by_cases hne : t.takeWhile (fun c => c != ']') = []
        · simp [hne] at h
        · rw [if_pos hne] at h
          simp only [Option.some.injEq, Prod.mk.injEq] at h
          obtain ⟨h1, h2⟩ := h
          subst h2
          refine ⟨markerText (t0.takeWhile isWhiteSpace) label,
            ⟨t0.takeWhile isWhiteSpace, ?_, ?_, ?_, rfl⟩, ?_⟩
          · intro c hc
            exact List.mem_takeWhile_imp hc
          · rw [← h1]
            exact hne
          · intro hmem
            rw [← h1] at hmem
            simpa using List.mem_takeWhile_imp hmem
          · have e2 : t = label ++ ']' :: rest0 := by
              rw [← hsplit2, heq2, h1]
            have e3 : t0 = t0.takeWhile isWhiteSpace ++ '[' :: (label ++ ']' :: rest0) := by
              rw [← e2, ← heq]
              exact hsplit.symm
            rw [← ht0]
            simp only [markerText, List.append_assoc, List.cons_append, List.nil_append]
            rw [← e3]
      · cases h
    · cases h
  · rw [if_neg hp] at h
    cases h

theorem continuationPattern_marker (m label rest : List Char) (hm : IsMarker m label) :
    continuationPattern (m ++ rest) = some (label, rest) := by
  obtain ⟨ws, hws, hne, hbr, rfl⟩ := hm
  have hpre : "CONTINUATION_POINT:".toList.isPrefixOf (markerText ws label ++ rest) = true := by
    rw [List.isPrefixOf_iff_prefix]
    exact ⟨ws ++ '[' :: label ++ [']'] ++ rest, by simp [markerText]⟩
  have hdrop : (markerText ws label ++ rest).drop 19 = ws ++ '[' :: (label ++ ']' :: rest) := by
    simp [markerText]
  have hdw : (ws ++ '[' :: (label ++ ']' :: rest)).dropWhile isWhiteSpace =
      '[' :: (label ++ ']' :: rest) := by
    rw [List.dropWhile_append_of_pos hws]
    simp [List.dropWhile_cons, show isWhiteSpace '[' = false by decide]
  have hlab : ∀ c ∈ label, (fun c => c != ']') c = true := by
    intro c hc
    have : c ≠ ']' := fun e => hbr (by rw [← e]; exact hc)
    simpa using this
  have htk : (label ++ ']' :: rest).takeWhile (fun c => c != ']') = label := by
    rw [List.takeWhile_append_of_pos hlab]
    simp [List.takeWhile_cons]
  have hdk : (label ++ ']' :: rest).dropWhile (fun c => c != ']') = ']' :: rest := by
    rw [List.dropWhile_append_of_pos hlab]
    simp [List.dropWhile_cons]
  unfold continuationPattern
  rw [if_pos hpre, hdrop, hdw]
  simp only
  rw [hdk, htk]
  simp only
  rw [if_pos hne]

theorem continuationPattern_rest_length (s label rest : List Char)
    (h : continuationPattern s = some (label, rest)) : rest.length < s.length := by
  obtain ⟨m, ⟨ws, _, _, _, hm⟩, hs⟩ := continuationPattern_some s label rest h
  have := congrArg List.length hs
  rw [hm] at this
  simp only [markerText, List.length_append, List.length_cons, String.toList] at this
  omega

theorem markerAt_zero_iff (s label : List Char) :
    MarkerAt s 0 label ↔ ∃ rest, continuationPattern s = some (label, rest) := by
  constructor
  · rintro ⟨m, hm, t, ht⟩
    rw [List.drop_zero] at ht
    exact ⟨t, by rw [← ht]; exact continuationPattern_marker m label t hm⟩
  · rintro ⟨rest, h⟩
    obtain ⟨m, hm, hs⟩ := continuationPattern_some s label rest h
    exact ⟨m, hm, rest, by rw [List.drop_zero]; exact hs.symm⟩

theorem markerAt_iff (s : List Char) (i : Nat) (label : List Char) :
    MarkerAt s i label ↔ ∃ rest, continuationPattern (s.drop i) = some (label, rest) := by
  rw [← markerAt_zero_iff]
  simp [MarkerAt]

theorem execContinuations_fuel (fuel fuel2 : Nat) (s : List Char) (h1 : s.length < fuel)
    (h2 : s.length < fuel2) : execContinuations fuel s = execContinuations fuel2 s := by
  induction fuel generalizing fuel2 s with
  | zero => omega
  | succ fuel ih =>
    cases fuel2 with
    | zero => omega
    | succ fuel2 =>
      simp only [execContinuations]
      cases hm : continuationPattern s with
      | some r =>
        obtain ⟨label, rest⟩ := r
        have := continuationPattern_rest_length s label rest hm
        simp only
        rw [ih fuel2 rest (by omega) (by omega)]
      | none =>
        cases s with
        | nil => rfl
        | cons c cs =>
          simp only [List.length_cons] at h1 h2
          simp only
          rw [ih fuel2 cs (by omega) (by omega)]

theorem continuationPoints_nil : continuationPoints [] = [] := by
  decide

theorem continuationPoints_of_match (s label rest : List Char)
    (h : continuationPattern s = some (label, rest)) :
    continuationPoints s = label :: continuationPoints rest := by
  have hlen := continuationPattern_rest_length s label rest h
  have e : execContinuations (s.length + 1) s = label :: execContinuations s.length rest := by
    simp only [execContinuations, h]
  unfold continuationPoints
  rw [e, execContinuations_fuel s.length (rest.length + 1) rest hlen (by omega)]

theorem continuationPoints_of_no_match (c : Char) (cs : List Char)
    (h : continuationPattern (c :: cs) = none) :
    continuationPoints (c :: cs) = continuationPoints cs := by
  unfold continuationPoints
  simp only [execContinuations, h, List.length_cons]

theorem continuationPattern_nil : continuationPattern [] = none := by
  decide

theorem not_markerAt_of_length_le (s : List Char) (i : Nat) (label : List Char)
    (h : s.length ≤ i) : ¬ MarkerAt s i label := by
  rw [markerAt_iff, List.drop_eq_nil_of_le h, continuationPattern_nil]
  rintro ⟨rest, hr⟩
  cases hr

theorem markerAt_append_left (x s : List Char) (i : Nat) (label : List Char) :
    MarkerAt (x ++ s) (x.length + i) label ↔ MarkerAt s i label := by
  rw [markerAt_iff, markerAt_iff, List.drop_append]

theorem continuationPoints_skip (x s : List Char)
    (h : ∀ i, i < x.length → ∀ l, ¬ MarkerAt (x ++ s) i l) :
    continuationPoints (x ++ s) = continuationPoints s := by
  induction x with
  | nil => rfl
  | cons c cs ih =>
    have hnone : continuationPattern (c :: (cs ++ s)) = none := by
      cases hm : continuationPattern (c :: (cs ++ s)) with
      | none => rfl
      | some r =>
        obtain ⟨label, rest⟩ := r
        exact absurd ((markerAt_zero_iff _ label).2 ⟨rest, hm⟩) (h 0 (by simp) label)
    rw [List.cons_append, continuationPoints_of_no_match c _ hnone]
    apply ih
    intro i hi l hmark
    apply h (i + 1) (by simpa using hi) l
    have := (markerAt_append_left [c] (cs ++ s) i l).2 hmark
    simpa [Nat.add_comm] using this

theorem continuationPoints_of_no_marker (s : List Char) (h : ∀ i l, ¬ MarkerAt s i l) :
    continuationPoints s = [] := by
  have := continuationPoints_skip s [] (fun i _ l => by simpa using h i l)
  rw [List.append_nil] at this
  rw [this, continuationPoints_nil]

theorem markerScan_continuationPoints_aux (n : Nat) (x s : List Char) (hn : s.length ≤ n)
    (h : ∀ i, i < x.length → ∀ l, ¬ MarkerAt (x ++ s) i l) :
    MarkerScan (x ++ s) (continuationPoints s) := by
  induction n generalizing x s with
  | zero =>
    have hs : s = [] := List.length_eq_zero.1 (by omega)
    subst hs
    rw [continuationPoints_nil]
    apply MarkerScan.done
    intro i label
    by_cases hi : i < x.length
    · exact h i hi label
    · exact not_markerAt_of_length_le _ i label (by simp; omega)
  | succ n ih =>
    cases s with
    | nil =>
      rw [continuationPoints_nil]
      apply MarkerScan.done
      intro i label
      by_cases hi : i < x.length
      · exact h i hi label
      · exact not_markerAt_of_length_le _ i label (by simp; omega)
    | cons c cs =>
      simp only [List.length_cons] at hn
      cases hm : continuationPattern (c :: cs) with
      | none =>
        rw [continuationPoints_of_no_match c cs hm]
        have e : x ++ c :: cs = (x ++ [c]) ++ cs := by simp
        rw [e]
        apply ih (x ++ [c]) cs (by omega)
        intro i hi l
        rw [← e]
        simp only [List.length_append, List.length_singleton] at hi
        by_cases hlt : i < x.length
        · exact h i hlt l
        · have hi2 : i = x.length + 0 := by omega
          rw [hi2, markerAt_append_left, markerAt_zero_iff, hm]
          rintro ⟨rest, hr⟩
          cases hr
      | some r =>
        obtain ⟨label, rest⟩ := r
        obtain ⟨m, hmark, hs⟩ := continuationPattern_some _ label rest hm
        have hlen := continuationPattern_rest_length _ label rest hm
        simp only [List.length_cons] at hlen
        rw [continuationPoints_of_match _ label rest hm]
        have e : x ++ c :: cs = x ++ m ++ rest := by
          rw [hs, List.append_assoc]
        rw [e]
        apply MarkerScan.found x m label rest _ hmark
        · intro i hi l
          rw [← e]
          exact h i hi l
        · have := ih [] rest (by omega) (fun i hi => by simp at hi)
          simpa using this

theorem markerScan_continuationPoints (content : List Char) :
    MarkerScan content (continuationPoints content) := by
  have := markerScan_continuationPoints_aux content.length [] content (Nat.le_refl _)
    (fun i hi => by simp at hi)
  simpa using this

theorem marker_ne_nil (m label : List Char) (h : IsMarker m label) : 0 < m.length := by
  obtain ⟨ws, _, _, _, rfl⟩ := h
  simp [markerText]

theorem continuationPoints_of_single_marker (x m label y : List Char)
    (hm : IsMarker m label)
    (honly : ∀ i l, MarkerAt (x ++ m ++ y) i l → i = x.length) :
    continuationPoints (x ++ m ++ y) = [label] := by
  rw [List.append_assoc, continuationPoints_skip x (m ++ y),
    continuationPoints_of_match _ label y (continuationPattern_marker m label y hm),
    continuationPoints_of_no_marker y]
  · intro i l hmark
    have h1 := (markerAt_append_left (x ++ m) y i l).2 hmark
    have h2 := honly _ l h1
    have h3 := marker_ne_nil m label hm
    simp only [List.length_append] at h2
    omega
  · intro i hi l hmark
    rw [← List.append_assoc] at hmark
    have := honly i l hmark
    omega

/-! ## Text kept by the formatting -/

theorem prefix_of_prefix_append_cons (m a c : List Char) (x : Char) (hx : x ∉ m)
    (h : m <+: a ++ x :: c) : m <+: a := by
  induction a generalizing m with
  | nil =>
    cases m with
    | nil => exact List.nil_prefix
    | cons b bs =>
      rw [List.nil_append, List.cons_prefix_cons] at h
      exact absurd (by rw [h.1]; exact List.mem_cons_self _ _) hx
  | cons d ds ih =>
    cases m with
    | nil => exact List.nil_prefix
    | cons b bs =>
      rw [List.cons_append, List.cons_prefix_cons] at h
      rw [List.cons_prefix_cons]
      exact ⟨h.1, ih bs (fun hm => hx (List.mem_cons_of_mem _ hm)) h.2⟩

theorem infix_of_infix_append_cons (m a c : List Char) (x : Char) (hx : x ∉ m)
    (h : m <:+: a ++ x :: c) : m <:+: a ∨ m <:+: c := by
  induction a with
  | nil =>
    rw [List.nil_append, List.infix_cons_iff] at h
    rcases h with h | h
    · left
      exact (prefix_of_prefix_append_cons m [] c x hx h).isInfix
    · exact Or.inr h
  | cons d ds ih =>
    rw [List.cons_append, List.infix_cons_iff] at h
    rcases h with h | h
    · left
      exact (prefix_of_prefix_append_cons m (d :: ds) c x hx h).isInfix
    · rcases ih h with h1 | h1
      · exact Or.inl (h1.trans (List.infix_cons (List.infix_refl _)))
      · exact Or.inr h1

theorem infix_of_infix_cons (m c : List Char) (x : Char) (hx : x ∉ m)
    (h : m <:+: x :: c) : m <:+: c := by
  rcases infix_of_infix_append_cons m [] c x hx h with h1 | h1
  · rw [List.infix_nil] at h1
    rw [h1]
    exact List.nil_infix
  · exact h1

theorem infix_codeBlockHtml_language (l b : List Char) : l <:+: codeBlockHtml l b := by
  unfold codeBlockHtml
  exact ⟨codeHeaderOpen ++ (if l ≠ [] then l else "code".toList) ++ codeBodyOpen,
    "\">".toList ++ b ++ codeBodyClose, by simp⟩

theorem infix_codeBlockHtml_code (l b : List Char) : b <:+: codeBlockHtml l b := by
  unfold codeBlockHtml
  exact ⟨codeHeaderOpen ++ (if l ≠ [] then l else "code".toList) ++ codeBodyOpen ++ l ++
    "\">".toList, codeBodyClose, by simp⟩

theorem infix_replaceCodeBlocks_aux (n : Nat) (m s : List Char) (hn : s.length ≤ n)
    (hbt : backtick ∉ m) (hnl : '\n' ∉ m) (h : m <:+: s) : m <:+: replaceCodeBlocks s := by
  induction n generalizing s with
  | zero =>
    have hs : s = [] := List.length_eq_zero.1 (by omega)
    subst hs
    rw [replaceCodeBlocks_nil]
    exact h
  | succ n ih =>
    cases s with
    | nil =>
      rw [replaceCodeBlocks_nil]
      exact h
    | cons c cs =>
      simp only [List.length_cons] at hn
      cases hm : matchCodeBlock (c :: cs) with
      | none =>
        rw [replaceCodeBlocks_of_no_match c cs hm]
        rw [List.infix_cons_iff] at h
        rcases h with h | h
        · obtain ⟨t, ht⟩ := h
          have e := replaceCodeBlocks_append_of_no_backtick m t hbt
          rw [ht, replaceCodeBlocks_of_no_match c cs hm] at e
          rw [e]
          exact (List.prefix_append _ _).isInfix
        · exact (ih cs (by omega) h).trans (List.infix_cons (List.infix_refl _))
      | some r =>
        obtain ⟨language, code, rest⟩ := r
        have hlen := matchCodeBlock_rest_length _ language code rest hm
        simp only [List.length_cons] at hlen
        rw [replaceCodeBlocks_of_match _ language code rest hm]
        rw [(matchCodeBlock_some _ language code rest hm).1] at h
        have e : fence ++ language ++ '\n' :: code ++ fence ++ rest =
            backtick :: backtick :: backtick ::
              (language ++ '\n' :: (code ++ backtick :: backtick :: backtick :: rest)) := by
          simp [fence]
        rw [e] at h
        have h1 := infix_of_infix_cons _ _ _ hbt (infix_of_infix_cons _ _ _ hbt
          (infix_of_infix_cons _ _ _ hbt h))
        rcases infix_of_infix_append_cons _ _ _ _ hnl h1 with h2 | h2
        · exact (h2.trans (infix_codeBlockHtml_language language code)).trans
            (List.prefix_append _ _).isInfix
        · rcases infix_of_infix_append_cons _ _ _ _ hbt h2 with h3 | h3
          · exact (h3.trans (infix_codeBlockHtml_code language code)).trans
              (List.prefix_append _ _).isInfix
          · have h4 := infix_of_infix_cons _ _ _ hbt (infix_of_infix_cons _ _ _ hbt h3)
            exact (ih rest (by omega) h4).trans (List.suffix_append _ _).isInfix

theorem infix_formattedContent (m s : List Char) (hbt : backtick ∉ m) (hnl : '\n' ∉ m)
    (h : m <:+: s) : m <:+: formattedContent s := by
  unfold formattedContent
  obtain ⟨u, v, huv⟩ := infix_replaceCodeBlocks_aux s.length m s (Nat.le_refl _) hbt hnl h
  rw [← huv, replaceNewlines_append, replaceNewlines_append,
    replaceNewlines_of_no_newline m hnl]
  exact ⟨_, _, rfl⟩

/-! ## Message blocks -/

theorem foldl_continuationBlock (points : List (List Char)) (html : List Char) :
    points.foldl (fun h point => h ++ continuationBlock point) html =
      html ++ points.flatMap continuationBlock := by
  induction points generalizing html with
  | nil => simp
  | cons p ps ih =>
    rw [List.foldl_cons, ih, List.flatMap_cons, List.append_assoc]

theorem renderMessage_eq (html : List Char) (message : Message) :
    renderMessage html message =
      html ++ (messageBlock message.role (formattedContent message.content) ++
        (continuationPoints message.content).flatMap continuationBlock) := by
  unfold renderMessage
  rw [foldl_continuationBlock, List.append_assoc]

theorem renderMessages_eq (html : List Char) (messages : List Message) :
    renderMessages html messages =
      html ++ messages.flatMap (fun message =>
        messageBlock message.role (formattedContent message.content) ++
          (continuationPoints message.content).flatMap continuationBlock) := by
  induction messages generalizing html with
  | nil => simp [renderMessages]
  | cons m ms ih =>
    unfold renderMessages at ih ⊢
    rw [List.foldl_cons, ih, renderMessage_eq, List.flatMap_cons, List.append_assoc]

/-! ## The paragraph split as a split on runs of newlines -/

theorem blankLine_infix_concat (cur : List Char) (c : Char)
    (h : blankLine <:+: cur ++ [c]) :
    blankLine <:+: cur ∨ (cur.getLast? = some '\n' ∧ c = '\n') := by
  obtain ⟨u, v, huv⟩ := h
  rcases List.eq_nil_or_concat v with hv | ⟨v0, d, hv⟩
  · subst hv
    right
    rw [List.append_nil] at huv
    have e : u ++ blankLine = (u ++ ['\n']) ++ ['\n'] := by simp [blankLine]
    rw [e] at huv
    have h1 := List.append_inj' huv rfl
    simp only [List.cons.injEq, and_true] at h1
    refine ⟨?_, h1.2.symm⟩
    rw [← h1.1]
    simp
  · left
    subst hv
    have e : u ++ blankLine ++ (v0 ++ [d]) = (u ++ blankLine ++ v0) ++ [d] := by simp
    rw [List.concat_eq_append, e] at huv
    have h1 := List.append_inj' huv rfl
    exact ⟨u, v0, h1.1⟩

theorem matchBlankRun_eq_some (s rest : List Char) (h : matchBlankRun s = some rest) :
    ∃ run, s = run ++ rest ∧ 2 ≤ run.length ∧ (∀ c ∈ run, c = '\n') ∧
      rest.head? ≠ some '\n' ∧ s.head? = some '\n' := by
  unfold matchBlankRun at h
  split at h
  · rename_i cs
    simp only [Option.some.injEq] at h
    refine ⟨'\n' :: '\n' :: cs.takeWhile (fun c => c == '\n'), ?_, ?_, ?_, ?_, rfl⟩
    · rw [← h]
      simp [List.takeWhile_append_dropWhile]
    · simp
    · intro x hx
      simp only [List.mem_cons] at hx
      rcases hx with hx | hx | hx
      · exact hx
      · exact hx
      · simpa using List.mem_takeWhile_imp hx
    · rw [← h]
      intro hh
      cases hd : cs.dropWhile (fun c => c == '\n') with
      | nil => rw [hd] at hh; cases hh
      | cons a t =>
        rw [hd] at hh
        simp only [List.head?_cons, Option.some.injEq] at hh
        have := List.head_dropWhile_not (fun c => c == '\n') cs (by rw [hd]; simp)
        simp only [hd, List.head_cons, hh] at this
        simp at this
  · cases h

theorem matchBlankRun_eq_none (c : Char) (cs : List Char)
    (h : matchBlankRun (c :: cs) = none) : c = '\n' → cs.head? ≠ some '\n' := by
  intro hc hh
  subst hc
  cases cs with
  | nil => cases hh
  | cons d ds =>
    simp only [List.head?_cons, Option.some.injEq] at hh
    subst hh
    simp [matchBlankRun] at h

theorem splitLoop_spec (fuel : Nat) (cur s : List Char) (hfuel : s.length < fuel)
    (hcur : ¬ blankLine <:+: cur)
    (hend : cur.getLast? = some '\n' → s.head? ≠ some '\n') :
    SplitOnBlankRuns (cur ++ s) (splitLoop fuel cur s) := by
  induction fuel generalizing cur s with
  | zero => omega
  | succ fuel ih =>
    cases s with
    | nil =>
      simp only [splitLoop, List.append_nil]
      exact SplitOnBlankRuns.last cur hcur
    | cons c cs =>
      simp only [List.length_cons] at hfuel
      simp only [splitLoop]
      cases hm : matchBlankRun (c :: cs) with
      | some rest =>
        obtain ⟨run, hs, hlen, hall, hhead, hfirst⟩ := matchBlankRun_eq_some _ _ hm
        simp only
        rw [hs, ← List.append_assoc]
        apply SplitOnBlankRuns.sep cur run rest _ _ hlen hall hhead
        · have hrest : rest.length < fuel := by
            have := congrArg List.length hs
            simp only [List.length_cons, List.length_append] at this
            omega
          have := ih [] rest hrest (by simp [blankLine]) (by simp)
          simpa using this
        · intro hin
          rcases blankLine_infix_concat cur '\n' hin with h1 | h1
          · exact hcur h1
          · exact hend h1.1 hfirst
      | none =>
        have e : cur ++ c :: cs = (cur ++ [c]) ++ cs := by simp
        simp only
        rw [e]
        apply ih (cur ++ [c]) cs (by omega)
        · intro hin
          rcases blankLine_infix_concat cur c hin with h1 | h1
          · exact hcur h1
          · exact hend h1.1 (by rw [h1.2]; rfl)
        · intro hlast
          apply matchBlankRun_eq_none c cs hm
          simpa using hlast

theorem paragraphs_spec (text : List Char) : SplitOnBlankRuns text (paragraphs text) := by
  have := splitLoop_spec (text.length + 1) [] text (by omega) (by simp [blankLine]) (by simp)
  simpa using this

/-! ## Fuel -/

theorem splitLoop_fuel (fuel fuel2 : Nat) (cur s : List Char) (h1 : s.length < fuel)
    (h2 : s.length < fuel2) : splitLoop fuel cur s = splitLoop fuel2 cur s := by
  induction fuel generalizing fuel2 cur s with
  | zero => omega
  | succ fuel ih =>
    cases fuel2 with
    | zero => omega
    | succ fuel2 =>
      cases s with
      | nil => rfl
      | cons c cs =>
        simp only [List.length_cons] at h1 h2
        simp only [splitLoop]
        cases hm : matchBlankRun (c :: cs) with
        | some rest =>
          obtain ⟨run, hs, hlen, _, _, _⟩ := matchBlankRun_eq_some _ _ hm
          have hrest : rest.length < cs.length + 1 := by
            have := congrArg List.length hs
            simp only [List.length_cons, List.length_append] at this
            omega
          simp only
          rw [ih fuel2 [] rest (by omega) (by omega)]
        | none =>
          simp only
          rw [ih fuel2 (cur ++ [c]) cs (by omega) (by omega)]

theorem lazyContent_append (s : List Char) : (lazyContent s).1 ++ (lazyContent s).2 = s := by
  induction s with
  | nil => rfl
  | cons c cs ih =>
    simp only [lazyContent]
    by_cases h : lookaheadEnd (c :: cs) = true
    · rw [if_pos h]
      rfl
    · rw [if_neg h]
      simp only [List.cons_append, ih]

theorem messagePattern_rest_length (s label content rest : List Char)
    (h : messagePattern s = some (label, content, rest)) : rest.length < s.length := by
  unfold messagePattern at h
  cases hl : matchLabel s with
  | none => rw [hl] at h; cases h
  | some lr =>
    obtain ⟨label', afterColon⟩ := lr
    rw [hl] at h
    simp only [Option.some.injEq, Prod.mk.injEq] at h
    have h1 := congrArg List.length (lazyContent_append (afterColon.dropWhile isWhiteSpace))
    have h2 := (List.dropWhile_suffix isWhiteSpace (l := afterColon)).length_le
    rw [h.2.2] at h1
    simp only [List.length_append] at h1
    rcases matchLabel_some s label' afterColon hl with ⟨_, hs⟩ | ⟨_, hs⟩
    · have := congrArg List.length hs
      simp only [List.length_append, String.toList, List.length_cons, List.length_nil] at this
      omega
    · have := congrArg List.length hs
      simp only [List.length_append, String.toList, List.length_cons, List.length_nil] at this
      omega

theorem execMessages_fuel (fuel fuel2 : Nat) (prev : Option Char) (s : List Char)
    (h1 : s.length < fuel) (h2 : s.length < fuel2) :
    execMessages fuel prev s = execMessages fuel2 prev s := by
  induction fuel generalizing fuel2 prev s with
  | zero => omega
  | succ fuel ih =>
    cases fuel2 with
    | zero => omega
    | succ fuel2 =>
      simp only [execMessages]
      cases hm : (if atLineStart prev = true then messagePattern s else none) with
      | some r =>
        obtain ⟨label, content, rest⟩ := r
        have hlen : rest.length < s.length := by
          by_cases hp : atLineStart prev = true
          · rw [if_pos hp] at hm
            exact messagePattern_rest_length s label content rest hm
          · rw [if_neg hp] at hm
            cases hm
        simp only
        rw [ih fuel2 _ rest (by omega) (by omega)]
      | none =>
        cases s with
        | nil => rfl
        | cons c cs =>
          simp only [List.length_cons] at h1 h2
          simp only
          rw [ih fuel2 _ cs (by omega) (by omega)]

/-! # Claims -/

/-- C1: on the text `Human: a`, newline, `b`, newline, `Claude: c` the first
turn spans two lines, and the primary pattern keeps only its first line: the
parsed content of the first message is `a`, and the line `b` is in no
message.  The text between the first colon and the next label line, trimmed,
is `a`, newline, `b`. -/
theorem primary_content_stops_at_line_end :
    parseMessages "Human: a\nb\nClaude: c".toList =
        some [{ role := "human".toList, content := "a".toList },
              { role := "claude".toList, content := "c".toList }] ∧
      trim " a\nb\n".toList = "a\nb".toList := by
  decide

/-- C2: the text `Human:`, newline, `Claude: hi` has two lines that begin with a
label, and the primary pattern produces one message, of role `human`, whose
content is the whole second line. -/
theorem empty_label_line_swallows_next :
    (labelLines "Human:\nClaude: hi".toList).length = 2 ∧
      parseMessages "Human:\nClaude: hi".toList =
        some [{ role := "human".toList, content := "Claude: hi".toList }] := by
  decide

/-- C3: when the primary pattern matches nothing and some paragraph has a
character that is not white space, parsing succeeds; the paragraphs are the
pieces of the text split on its runs of two or more newlines, the contents of
the messages are the trimmed non-blank paragraphs in text order, and the
message at index `i` has role `human` when `i` is even and `assistant` when
`i` is odd, blank paragraphs being left out of the count. -/
theorem fallback_alternating_paragraphs (text : List Char)
    (hprimary : primaryMessages text = [])
    (hpara : ∃ p ∈ paragraphs text, ∃ c ∈ p, isWhiteSpace c = false) :
    SplitOnBlankRuns text (paragraphs text) ∧
      ∃ ms, parseMessages text = some ms ∧
        ms.map Message.content =
          ((paragraphs text).map trim).filter (fun p => p ≠ []) ∧
        ∀ i m, ms[i]? = some m →
          m.role = if i % 2 = 0 then "human".toList else "assistant".toList := by
  have hne : fallbackMessages text ≠ [] := by
    intro hnil
    have hb := (paragraphs_blank_iff text).2 ((fallbackMessages_eq_nil_iff text).1 hnil)
    obtain ⟨p, hp, c, hc, hw⟩ := hpara
    have := (isBlank_iff p).1 (hb p hp) c hc
    rw [hw] at this
    cases this
  refine ⟨paragraphs_spec text, fallbackMessages text, ?_, fallbackMessages_contents text, ?_⟩
  · unfold parseMessages
    simp only [List.length_eq_zero]
    rw [if_pos hprimary, if_neg hne]
  · intro i m hm
    exact fallbackMessages_roles text i m hm

/-- Witness of C3 on a text of three paragraphs and one blank paragraph: the
messages are `a` for `human`, the two lines `b` and `c` for `assistant`, and
`d` for `human`. -/
theorem fallback_alternating_paragraphs_witness :
    primaryMessages "a\n\n\nb\nc\n\n \n\nd".toList = [] ∧
      parseMessages "a\n\n\nb\nc\n\n \n\nd".toList =
        some [{ role := "human".toList, content := "a".toList },
              { role := "assistant".toList, content := "b\nc".toList },
              { role := "human".toList, content := "d".toList }] ∧
      (SplitOnBlankRuns "a\n\n\nb\nc\n\n \n\nd".toList
          (paragraphs "a\n\n\nb\nc\n\n \n\nd".toList) ∧
        ∃ ms, parseMessages "a\n\n\nb\nc\n\n \n\nd".toList = some ms ∧
          ms.map Message.content =
            ((paragraphs "a\n\n\nb\nc\n\n \n\nd".toList).map trim).filter
              (fun p => p ≠ []) ∧
          ∀ i m, ms[i]? = some m →
            m.role = if i % 2 = 0 then "human".toList else "assistant".toList) :=
  ⟨by decide, by decide,
    fallback_alternating_paragraphs "a\n\n\nb\nc\n\n \n\nd".toList (by decide)
      ⟨"a".toList, by decide, 'a', by decide, by decide⟩⟩

/-- C4: parsing fails exactly when the text has no line that begins with
`Human:` or `Claude:` and no paragraph with a character that is not white
space; no document is produced exactly when parsing fails; when parsing does
not fail, the message sequence given to the renderer is not empty. -/
theorem parse_fails_iff_nothing_to_parse (text : List Char) :
    (parseMessages text = none ↔
      (labelLines text = [] ∧
        ¬ ∃ p ∈ paragraphs text, ∃ c ∈ p, isWhiteSpace c = false)) ∧
    (∀ head, processFile head text = none ↔ parseMessages text = none) ∧
    (∀ ms, parseMessages text = some ms → ms ≠ []) := by
  refine ⟨?_, ?_, parseMessages_some_ne_nil text⟩
  swap
  · intro head
    unfold processFile
    cases parseMessages text with
    | none => simp
    | some ms => simp
  rw [parseMessages_eq_none_iff]
  constructor
  · intro h
    refine ⟨labelLines_eq_nil_of_blank text h, ?_⟩
    rintro ⟨p, hp, c, hc, hw⟩
    have := (isBlank_iff p).1 ((paragraphs_blank_iff text).2 h p hp) c hc
    rw [hw] at this
    cases this
  · rintro ⟨_, h⟩
    rw [← paragraphs_blank_iff]
    intro p hp
    rw [isBlank_iff]
    intro c hc
    cases hw : isWhiteSpace c with
    | true => rfl
    | false => exact absurd ⟨p, hp, c, hc, hw⟩ h

/-- C5: on the text `Claude: hi` the primary pattern produces a message whose
role is the lowercased label `claude`, which is neither `human` nor
`assistant`. -/
theorem primary_role_is_lowercased_label :
    parseMessages "Claude: hi".toList =
        some [{ role := "claude".toList, content := "hi".toList }] ∧
      "claude".toList ≠ "human".toList ∧ "claude".toList ≠ "assistant".toList := by
  decide

/-- C6 (counterexample): the body of the fence in the content made of three
backticks, `js`, a newline, `a`, a newline, `b`, a newline and three backticks
is `a`, newline, `b`, newline; the code container of the formatted content
holds `a<br>b<br>`, not that body, and the formatted content has no newline. -/
theorem code_body_newline_replaced :
    formattedContent (fence ++ "js\na\nb\n".toList ++ fence) =
        codeBlockHtml "js".toList "a<br>b<br>".toList ∧
      formattedContent (fence ++ "js\na\nb\n".toList ++ fence) ≠
        codeBlockHtml "js".toList "a\nb\n".toList ∧
      '\n' ∉ formattedContent (fence ++ "js\na\nb\n".toList ++ fence) := by
  decide

/-- C6 (amended): code bodies are not exempt from line-break normalization.
For a content made of a text `p` before the first fenced region (no triple
backtick in `p`, no backtick at its end), the fenced region with language `l`
and body `b` (no triple backtick in `b`, no backtick at its end), and any text
`s` after it, the text placed inside the code container is `b` with every
newline replaced by `<br>`, and no newline at all is left in the formatted
content. -/
theorem code_body_breaks (p l b s : List Char)
    (hp : ¬ fence <:+: p) (hplast : p.getLast? ≠ some backtick)
    (hl : ∀ c ∈ l, isWordChar c = true)
    (hb : ¬ fence <:+: b) (hblast : b.getLast? ≠ some backtick) :
    formattedContent (p ++ (fence ++ l ++ '\n' :: b ++ fence ++ s)) =
        replaceNewlines p ++
          (codeHeaderOpen ++ (if l ≠ [] then l else "code".toList) ++ codeBodyOpen ++ l ++
            "\">".toList ++ replaceNewlines b ++ codeBodyClose) ++
          formattedContent s ∧
      '\n' ∉ formattedContent (p ++ (fence ++ l ++ '\n' :: b ++ fence ++ s)) := by
  refine ⟨?_, newline_not_mem_replaceNewlines _⟩
  unfold formattedContent
  rw [replaceCodeBlocks_fenced p l b s hp hplast hl hb hblast, replaceNewlines_append,
    replaceNewlines_append, replaceNewlines_codeBlockHtml l b hl]
  rfl

/-- Witness of C6 (amended): two fenced regions, the first with a body of two
lines. -/
theorem code_body_breaks_witness :
    formattedContent ("x\n".toList ++ (fence ++ "js".toList ++ '\n' :: "a\nb".toList ++ fence ++
        ("\n".toList ++ fence ++ "\nc\n".toList ++ fence))) =
        replaceNewlines "x\n".toList ++
          (codeHeaderOpen ++ (if "js".toList ≠ [] then "js".toList else "code".toList) ++
            codeBodyOpen ++ "js".toList ++ "\">".toList ++ replaceNewlines "a\nb".toList ++
            codeBodyClose) ++
          formattedContent ("\n".toList ++ fence ++ "\nc\n".toList ++ fence) ∧
      '\n' ∉ formattedContent ("x\n".toList ++ (fence ++ "js".toList ++ '\n' :: "a\nb".toList ++
        fence ++ ("\n".toList ++ fence ++ "\nc\n".toList ++ fence))) :=
  code_body_breaks "x\n".toList "js".toList "a\nb".toList
    ("\n".toList ++ fence ++ "\nc\n".toList ++ fence)
    (by decide) (by decide) (by decide) (by decide) (by decide)

/-- C7 (counterexample): the content `<br>` has no fence and no newline, and
its formatted content has one occurrence of `<br>`, not zero. -/
theorem literal_break_is_counted :
    ¬ fence <:+: "<br>".toList ∧ "<br>".toList.count '\n' = 0 ∧
      countOcc br (formattedContent "<br>".toList) = 1 := by
  decide

/-- C7 (amended): for a content with no triple backtick, with `n` newlines and
`k` occurrences of the literal text `<br>`, the formatted content has exactly
`n + k` occurrences of `<br>` and no newline. -/
theorem line_break_count (content : List Char) (hfence : ¬ fence <:+: content) :
    countOcc br (formattedContent content) = content.count '\n' + countOcc br content ∧
      '\n' ∉ formattedContent content := by
  refine ⟨?_, newline_not_mem_replaceNewlines _⟩
  unfold formattedContent
  rw [replaceCodeBlocks_of_no_fence content hfence, countOcc_br_replaceNewlines]

/-- Witness of C7 (amended): two newlines and one literal `<br>`. -/
theorem line_break_count_witness :
    ¬ fence <:+: "a\nb<br>c\n".toList ∧
      countOcc br (formattedContent "a\nb<br>c\n".toList) =
        "a\nb<br>c\n".toList.count '\n' + countOcc br "a\nb<br>c\n".toList ∧
      '\n' ∉ formattedContent "a\nb<br>c\n".toList :=
  ⟨by decide, line_break_count "a\nb<br>c\n".toList (by decide)⟩

/-- C8 (counterexample): the content `CONTINUATION_POINT:[x]` has no space
between the colon and the bracket, so the text `CONTINUATION_POINT: [` occurs
nowhere in it, and the renderer emits a continuation block of label `x` after
the block of the message.  In the content
`CONTINUATION_POINT:[a CONTINUATION_POINT: [b]` the text
`CONTINUATION_POINT: [b]` occurs once, and the one block emitted has the label
`a CONTINUATION_POINT: [b`, not `b`. -/
theorem marker_without_space_yields_block :
    countOcc "CONTINUATION_POINT: [".toList "CONTINUATION_POINT:[x]".toList = 0 ∧
      continuationPoints "CONTINUATION_POINT:[x]".toList = ["x".toList] ∧
      renderMessage []
          { role := "human".toList, content := "CONTINUATION_POINT:[x]".toList } =
        messageBlock "human".toList "CONTINUATION_POINT:[x]".toList ++
          continuationBlock "x".toList ∧
      countOcc "CONTINUATION_POINT: [b]".toList
          "CONTINUATION_POINT:[a CONTINUATION_POINT: [b]".toList = 1 ∧
      continuationPoints "CONTINUATION_POINT:[a CONTINUATION_POINT: [b]".toList =
        ["a CONTINUATION_POINT: [b".toList] := by
  decide

/-- C8 (amended): a continuation marker is `CONTINUATION_POINT:`, a run of
white space that may be empty, and a label between square brackets, the label
a non-empty run of characters other than `]`.  The rendered document is the
document so far followed, for each message in order, by the block of the
message and then one continuation block per label of `continuationPoints`;
these labels are those of the non-overlapping occurrences of a marker met from
left to right in the content.  A content in which
`CONTINUATION_POINT: [resume-here]` occurs keeps that text in its formatted
content, and when it is the only occurrence of a marker the labels are exactly
`resume-here`. -/
theorem continuation_blocks_follow_message (html : List Char) (messages : List Message)
    (message : Message) :
    renderMessages html messages =
        html ++ messages.flatMap (fun msg =>
          messageBlock msg.role (formattedContent msg.content) ++
            (continuationPoints msg.content).flatMap continuationBlock) ∧
      MarkerScan message.content (continuationPoints message.content) ∧
      ∀ x y, message.content = x ++ "CONTINUATION_POINT: [resume-here]".toList ++ y →
        "CONTINUATION_POINT: [resume-here]".toList <:+: formattedContent message.content ∧
        ((∀ i label, MarkerAt message.content i label → i = x.length) →
          continuationPoints message.content = ["resume-here".toList]) := by
  refine ⟨renderMessages_eq html messages, markerScan_continuationPoints _, ?_⟩
  intro x y hc
  refine ⟨?_, ?_⟩
  · apply infix_formattedContent _ _ (by decide) (by decide)
    exact ⟨x, y, hc.symm⟩
  · intro honly
    rw [hc] at honly ⊢
    exact continuationPoints_of_single_marker x _ "resume-here".toList y
      ⟨" ".toList, by decide, by decide, by decide, rfl⟩ honly

/-- Witness of C8 (amended): a message with the one marker
`CONTINUATION_POINT: [resume-here]`, followed by a second message. -/
theorem continuation_blocks_follow_message_witness :
    renderMessages "<h1>".toList
        [{ role := "human".toList,
           content := "see CONTINUATION_POINT: [resume-here] ok".toList },
         { role := "claude".toList, content := "hi".toList }] =
      "<h1>".toList ++
        (messageBlock "human".toList "see CONTINUATION_POINT: [resume-here] ok".toList ++
          continuationBlock "resume-here".toList ++
          messageBlock "claude".toList "hi".toList) ∧
      "CONTINUATION_POINT: [resume-here]".toList <:+:
        formattedContent "see CONTINUATION_POINT: [resume-here] ok".toList ∧
      continuationPoints "see CONTINUATION_POINT: [resume-here] ok".toList =
        ["resume-here".toList] := by
  have h := continuation_blocks_follow_message "<h1>".toList
    [{ role := "human".toList,
       content := "see CONTINUATION_POINT: [resume-here] ok".toList },
     { role := "claude".toList, content := "hi".toList }]
    { role := "human".toList, content := "see CONTINUATION_POINT: [resume-here] ok".toList }
  obtain ⟨h1, _, h3⟩ := h
  have h4 := h3 "see ".toList " ok".toList (by decide)
  refine ⟨?_, h4.1, ?_⟩
  · rw [h1]
    decide
  · apply h4.2
    intro i label hmark
    rw [markerAt_iff] at hmark
    obtain ⟨rest, hrest⟩ := hmark
    by_cases hi : i < 41
    · have hall : ∀ j, j < 41 →
          (continuationPattern
            (("see CONTINUATION_POINT: [resume-here] ok".toList).drop j)).isSome = true →
          j = 4 := by
        decide
      have := hall i hi (by simp only [hrest, Option.isSome_some])
      simpa using this
    · have hnil : ("see CONTINUATION_POINT: [resume-here] ok".toList).drop i = [] := by
        apply List.drop_eq_nil_of_le
        simp only [String.toList, List.length_cons, List.length_nil]
        omega
      simp only [hnil] at hrest
      rw [continuationPattern_nil] at hrest
      cases hrest

/-- C9 (counterexample): with `P` and `S` empty, the body `print(1)` followed
by a newline is held by the container as `print(1)<br>`; and with the body
`x` followed by one backtick, which contains no triple backtick, the container
holds `x` alone and a backtick is left after the container. -/
theorem code_container_differs_from_body :
    formattedContent (fence ++ "python".toList ++ '\n' :: "print(1)\n".toList ++ fence) =
        codeBlockHtml "python".toList "print(1)<br>".toList ∧
      formattedContent (fence ++ "python".toList ++ '\n' :: "print(1)\n".toList ++ fence) ≠
        codeBlockHtml "python".toList "print(1)\n".toList ∧
      ¬ fence <:+: [ 'x', backtick] ∧
      formattedContent (fence ++ '\n' :: [ 'x', backtick] ++ fence) =
        codeBlockHtml [] "x".toList ++ [backtick] ∧
      formattedContent (fence ++ '\n' :: [ 'x', backtick] ++ fence) ≠
        codeBlockHtml [] [ 'x', backtick] := by
  decide

/-- C9 (amended): for a content `P`, three backticks, `L`, newline, `B`, three
backticks, `S`, where `L` is a run of word characters, `B` contains no triple
backtick and does not end in a backtick, and `P` and `S` contain no backtick,
the formatted content is `P` and `S` with only their newlines changed to
`<br>`, around one header and container pair whose header shows `L`, or `code`
when `L` is empty, and whose container holds `B` with its newlines changed to
`<br>`. -/
theorem fenced_block_replaced_in_place (p l b s : List Char)
    (hp : backtick ∉ p) (hs : backtick ∉ s)
    (hl : ∀ c ∈ l, isWordChar c = true)
    (hb : ¬ fence <:+: b) (hblast : b.getLast? ≠ some backtick) :
    formattedContent (p ++ fence ++ l ++ '\n' :: b ++ fence ++ s) =
      replaceNewlines p ++
        (codeHeaderOpen ++ (if l = [] then "code".toList else l) ++ codeBodyOpen ++ l ++
          "\">".toList ++ replaceNewlines b ++ codeBodyClose) ++
        replaceNewlines s := by
  have e : p ++ fence ++ l ++ '\n' :: b ++ fence ++ s =
      p ++ (fence ++ l ++ '\n' :: b ++ fence ++ s) := by simp
  have hs2 : replaceCodeBlocks s = s :=
    replaceCodeBlocks_of_no_fence s (not_fence_infix_of_no_backtick s hs)
  unfold formattedContent
  rw [e, replaceCodeBlocks_fenced p l b s (not_fence_infix_of_no_backtick p hp)
    (getLast?_ne_of_not_mem p backtick hp) hl hb hblast, hs2, replaceNewlines_append,
    replaceNewlines_append, replaceNewlines_codeBlockHtml l b hl]
  unfold codeBlockHtml
  by_cases hnil : l = []
  · simp [hnil]
  · simp [hnil]

/-- Witness of C9 (amended): the fenced `python` example, three
backticks, `python`, newline, `print(1)`, newline, three backticks, between a
text before and a text after. -/
theorem fenced_block_replaced_in_place_witness :
    formattedContent ("see\n".toList ++ fence ++ "python".toList ++ '\n' :: "print(1)\n".toList ++
        fence ++ "\nend".toList) =
      "see<br>".toList ++
        (codeHeaderOpen ++ "python".toList ++ codeBodyOpen ++ "python".toList ++
          "\">".toList ++ "print(1)<br>".toList ++ codeBodyClose) ++
        "<br>end".toList :=
  fenced_block_replaced_in_place "see\n".toList "python".toList "print(1)\n".toList
    "\nend".toList (by decide) (by decide) (by decide) (by decide) (by decide)

/-- C10 (counterexample): the primary pattern matches the text
`Human: a<br>b`, and the formatted content of its one message has an
occurrence of `<br>`. -/
theorem primary_content_may_hold_break :
    primaryMessages "Human: a<br>b".toList ≠ [] ∧
      parseMessages "Human: a<br>b".toList =
        some [{ role := "human".toList, content := "a<br>b".toList }] ∧
      countOcc br (formattedContent "a<br>b".toList) = 1 := by
  decide

/-- C10 (amended): when the primary pattern matches at least once, the parsed
messages are those of the primary pattern, the content of each has no newline,
and the code block replacement and the newline replacement leave it as it is:
the formatted content is the content itself. -/
theorem primary_content_single_line (text : List Char) (hprimary : primaryMessages text ≠ []) :
    parseMessages text = some (primaryMessages text) ∧
      ∀ m ∈ primaryMessages text, '\n' ∉ m.content ∧ formattedContent m.content = m.content := by
  refine ⟨?_, ?_⟩
  · unfold parseMessages
    simp only [List.length_eq_zero]
    rw [if_neg hprimary, if_neg hprimary]
  · intro m hm
    have h := execMessages_no_newline _ _ _ m hm
    exact ⟨h, formattedContent_of_no_newline _ h⟩

/-- Witness of C10 (amended): a transcript of two turns over three lines. -/
theorem primary_content_single_line_witness :
    primaryMessages "Human: a\nb\nClaude: c".toList ≠ [] ∧
      parseMessages "Human: a\nb\nClaude: c".toList =
        some (primaryMessages "Human: a\nb\nClaude: c".toList) ∧
      ∀ m ∈ primaryMessages "Human: a\nb\nClaude: c".toList,
        '\n' ∉ m.content ∧ formattedContent m.content = m.content :=
  ⟨by decide, primary_content_single_line "Human: a\nb\nClaude: c".toList (by decide)⟩

end ConversationLogger
